import Mathlib

/-!
Verification of the batch compression pool of `src/index.js` (TF-Tout-).

The file embeds the server's batch job pool: the per-file compression job
(`processFile`, lines 142-303), the SSE notification stream, the
concurrency-bounded scheduler of `POST /api/compress-multi`
(`startNext`, lines 306-384), and the overall-progress aggregation
(`reportOverall`, lines 317-323).

Modelling choices:
* JS numbers that hold byte counts, indices and percentages are naturals.
  `Math.round(a / b)` on non-negative values is `(2*a + b) / (2*b)` in
  natural division (`jsRound`), proved equal to `⌊a/b + 1/2⌋` below.
* `Math.random() * 0.04 + 0.01` (a real in [0.01, 0.05)) is modelled as an
  explicit fraction `Rnd` of naturals; theorems that depend on its range
  carry the hypothesis `Rnd.valid`.
* `Math.floor(originalSize * 0.9)` is `9 * size / 10` in natural division,
  exact for every size below 2^52 (file sizes are capped at 500 MB).
* The single-threaded event loop is modelled as a small-step scheduler: a
  schedule (`List ℕ`) picks, at each step, which currently running job
  either fires its next estimator tick or has its awaited work resolve.
  A job's behaviour is its `JobSpec`: the estimator ticks that fire before
  its compression resolves, the outcome of the encode capability, whether
  the output write succeeds, and whether `processFile` itself throws
  before its try block (an unexpected internal error).
* Only SSE pushes are modelled as events; `console.log` lines are not.
-/

/-- JS `Math.round (a / b)` for naturals with `b > 0`:
`⌊a/b + 1/2⌋ = ⌊(2a+b)/(2b)⌋`, written with natural division. -/
def jsRound (a b : ℕ) : ℕ := (2 * a + b) / (2 * b)

/-- The function `jsRound` agrees with the real-arithmetic formula `⌊a/b + 1/2⌋`. -/
theorem jsRound_eq_floor (a b : ℕ) (hb : 0 < b) :
    (jsRound a b : ℤ) = ⌊(a : ℚ) / b + 1 / 2⌋ := by
  have h2b : (0 : ℚ) < (2 * b : ℕ) := by positivity
  have : (a : ℚ) / b + 1 / 2 = ((2 * a + b : ℕ) : ℚ) / ((2 * b : ℕ) : ℚ) := by
    push_cast
    field_simp
    ring
  rw [jsRound, this]
  rw [Rat.floor_natCast_div_natCast]
  norm_cast

/-- The function `jsRound` is monotone along the order of the represented fractions. -/
theorem jsRound_mono {a b c d : ℕ} (hb : 0 < b) (hd : 0 < d)
    (h : (a : ℚ) / b ≤ (c : ℚ) / d) : jsRound a b ≤ jsRound c d := by
  have h1 := jsRound_eq_floor a b hb
  have h2 := jsRound_eq_floor c d hd
  have : (jsRound a b : ℤ) ≤ (jsRound c d : ℤ) := by
    rw [h1, h2]
    exact Int.floor_le_floor (by linarith)
  exact_mod_cast this

/-! ### Constants (src/index.js lines 14-17) -/

/-- Line 14: the limit `CONCURRENCY = Math.max(1, Number(process.env.CONCURRENCY || 2))`.
The configuration is the parsed numeric environment value (absent: 2). -/
def CONCURRENCY (cfg : Option ℤ) : ℕ := (max 1 (cfg.getD 2)).toNat

/-- Line 16: only report a file-progress if bytes changed by more than 64 KB. -/
def MIN_REPORT_BYTES : ℕ := 64 * 1024

/-- Line 17: ceiling for the simulated progress percentage. -/
def MAX_SIMULATED_PCT : ℕ := 90

/-! ### The random tick factor -/

/-- One draw of `Math.random() * 0.04 + 0.01` (line 186), as an explicit
fraction `num / den`. -/
structure Rnd where
  num : ℕ
  den : ℕ
deriving DecidableEq

/-- The drawn factor lies in `[1/100, 1/20)`, i.e. in the 1%..5% band. -/
def Rnd.valid (r : Rnd) : Prop :=
  0 < r.den ∧ r.den ≤ 100 * r.num ∧ 20 * r.num < r.den

instance : DecidablePred Rnd.valid := fun r => by
  unfold Rnd.valid
  infer_instance

/-! ### Job behaviour parameters -/

/-- Outcome of the encode capability (sharp/Jimp, lines 196-257): a JPEG
buffer of some length, or a thrown error. -/
inductive EncodeOutcome where
  | ok (outLen : ℕ)
  | fail (msg : String)
deriving DecidableEq

/-- The behaviour of one submitted file's job.  `ticks` are the estimator
ticks that fire while the job runs; `encode` is the encode capability's
outcome; `persistOk` tells whether `writeFile` (line 270) succeeds;
`now` is `Date.now()` at output naming (line 268); `crash` marks an
unexpected internal error thrown by `processFile` before its try block
(lines 143-180), which its own catch never sees. -/
structure JobSpec where
  originalname : String
  size : ℕ
  ticks : List Rnd
  encode : EncodeOutcome
  persistOk : Bool
  persistErrMsg : String
  now : ℕ
  crash : Bool
deriving DecidableEq

instance : Inhabited JobSpec :=
  ⟨⟨"", 0, [], .ok 0, true, "", 0, false⟩⟩

/-- A job failed inside `processFile`: the encode capability threw, or the
output write failed (and the job did not crash outside the try block). -/
def jobFailed (spec : JobSpec) : Prop :=
  spec.crash = false ∧ ((∃ m, spec.encode = .fail m) ∨ spec.persistOk = false)

/-- A job ran to a successful completion. -/
def jobSucceeded (spec : JobSpec) : Prop :=
  spec.crash = false ∧ (∃ n, spec.encode = .ok n) ∧ spec.persistOk = true

/-! ### Per-file state (src/index.js lines 143-155) -/

/-- The `state` object of `processFile`. -/
structure FileState where
  index : ℕ
  originalName : String
  originalSize : ℕ
  processedBytes : ℕ
  progress : ℕ
  compressedSize : Option ℕ
  outPath : Option String
  error : Option String
  lastReportedPct : ℤ
  lastReportedBytes : ℤ
  isCompressing : Bool
deriving DecidableEq

/-- Lines 143-155 and 182: the state at the moment the job starts running
(`isCompressing` is set to `true` just before the interval is armed). -/
def initFileState (spec : JobSpec) (idx : ℕ) : FileState where
  index := idx
  originalName := spec.originalname
  originalSize := spec.size
  processedBytes := 0
  progress := 0
  compressedSize := none
  outPath := none
  error := none
  lastReportedPct := -1
  lastReportedBytes := -1
  isCompressing := true

/-! ### SSE events (the push-notification stream) -/

/-- One entry of the `results` array (line 352): index, name, originalSize,
compressedSize, outPath, error.  On a failed job `processFile` returns only
index, name and error (line 301), so the other fields are absent. -/
structure ResultEntry where
  index : ℕ
  name : String
  originalSize : Option ℕ
  compressedSize : Option ℕ
  outPath : Option String
  error : Option String
deriving DecidableEq

/-- One SSE event pushed to the submitting client.  Payload fields follow
lines 169-175 (`file-progress`), 275-281 and 300 (`file-done`),
322 and 374 (`overall-progress`), and 375 (`done`). -/
inductive Event where
  | fileProgress (index : ℕ) (name : String) (processedBytes originalSize : ℕ)
      (progress : ℕ)
  | fileDone (index : ℕ) (name : String) (originalSize compressedSize : Option ℕ)
      (outPath : Option String) (error : Option String)
  | overallProgress (processedBytes totalOriginal : ℕ) (progress : ℕ)
  | done (results : List ResultEntry)
deriving DecidableEq

/-- The synchronous response of `POST /api/compress-multi` (line 383). -/
structure Response where
  success : Bool
  results : List ResultEntry
deriving DecidableEq

/-! ### reportIfNeeded (lines 158-177) -/

/-- Throttled per-file progress reporting.  Returns the updated state and
the SSE events pushed (one `file-progress`, or none).  The push happens
only when a client id was supplied (`if (clientId)`, line 168). -/
def reportIfNeeded (hasClient : Bool) (st : FileState) : FileState × List Event :=
  let pct : ℤ := st.progress
  let bytes : ℤ := st.processedBytes
  let pctChanged : Bool := pct != st.lastReportedPct
  let bytesChanged : Bool := bytes - st.lastReportedBytes > (MIN_REPORT_BYTES : ℤ)
  if !pctChanged && !bytesChanged then (st, [])
  else
    ({ st with lastReportedPct := pct, lastReportedBytes := bytes },
     if hasClient then
       [.fileProgress st.index st.originalName st.processedBytes st.originalSize
          st.progress]
     else [])

/-! ### The estimator tick (lines 183-192) -/

/-- The computed increment: `Math.max(8*1024, Math.round(originalSize *
(Math.random()*0.04 + 0.01)))` with the random draw `r`. -/
def tickInc (size : ℕ) (r : Rnd) : ℕ :=
  max (8 * 1024) (jsRound (size * r.num) r.den)

/-- One estimator tick on the file state (the `setInterval` callback body,
without its trailing `reportIfNeeded`). -/
def tickJob (st : FileState) (r : Rnd) : FileState :=
  if st.isCompressing = false then st
  else
    let maxBeforeFinish := 9 * st.originalSize / 10
    let inc := tickInc st.originalSize r
    let processed := min maxBeforeFinish (st.processedBytes + inc)
    let newPct := jsRound (processed * 100) (max 1 st.originalSize)
    { st with processedBytes := processed,
              progress := min MAX_SIMULATED_PCT newPct }

/-! ### Output naming (lines 267-271) -/

/-- JS `replace(/[^a-zA-Z0-9.\-_]/g, '_')`. -/
def safeName (s : String) : String :=
  s.map fun c =>
    if c.isAlphanum || c = '.' || c = '-' || c = '_' then c else '_'

/-- JS `replace(/\.[^/.]+$/, '')`: drop a final extension (a dot followed by
one or more characters none of which is a slash or a dot). -/
def stripExt (s : String) : String :=
  let r := s.toList.reverse
  let t := r.takeWhile fun c => c != '.' && c != '/'
  match r.drop t.length with
  | '.' :: rest => if t.isEmpty then s else String.mk rest.reverse
  | _ => s

/-- The output retrieval path `/outputs/<now>_<idx>_<stripped>.jpg`. -/
def outPathFor (spec : JobSpec) (idx : ℕ) : String :=
  "/outputs/" ++ toString spec.now ++ "_" ++ toString idx ++ "_"
    ++ stripExt (safeName spec.originalname) ++ ".jpg"

/-! ### Job completion (lines 259-302) -/

/-- The catch block of `processFile` (lines 292-302): stop the interval,
record the error, reset progress, push a throttled report and the
`file-done`, and return the failure result. -/
def failPath (hasClient : Bool) (st : FileState) (msg : String) :
    FileState × List Event × ResultEntry :=
  let st1 := { st with error := some msg, isCompressing := false,
                       progress := 0, processedBytes := 0 }
  let rep := reportIfNeeded hasClient st1
  let doneEv : List Event :=
    if hasClient then
      [.fileDone rep.1.index rep.1.originalName none none none (some msg)]
    else []
  (rep.1, rep.2 ++ doneEv,
   { index := rep.1.index, name := rep.1.originalName, originalSize := none,
     compressedSize := none, outPath := none, error := some msg })

/-- Resolution of the job's awaited work: the success path (lines 259-291)
with the write possibly failing into the catch block, or the encode
capability failing into the catch block. -/
def completeJob (hasClient : Bool) (spec : JobSpec) (st : FileState) :
    FileState × List Event × ResultEntry :=
  match spec.encode with
  | .ok outLen =>
    let st1 := { st with compressedSize := some outLen, processedBytes := outLen,
                         progress := 100, isCompressing := false }
    if spec.persistOk then
      let st2 := { st1 with outPath := some (outPathFor spec st.index) }
      let rep := reportIfNeeded hasClient st2
      let doneEv : List Event :=
        if hasClient then
          [.fileDone rep.1.index rep.1.originalName (some rep.1.originalSize)
             (some outLen) rep.1.outPath none]
        else []
      (rep.1, rep.2 ++ doneEv,
       { index := rep.1.index, name := rep.1.originalName,
         originalSize := some rep.1.originalSize, compressedSize := some outLen,
         outPath := rep.1.outPath, error := none })
    else failPath hasClient st1 spec.persistErrMsg
  | .fail msg => failPath hasClient st msg

/-! ### The worker pool of POST /api/compress-multi (lines 306-384) -/

/-- One running job: its batch index, its behaviour, the `state` object of
its `processFile` call, and the estimator ticks still to fire before its
compression resolves. -/
structure RunningJob where
  idx : ℕ
  spec : JobSpec
  fs : FileState
  ticksLeft : List Rnd
deriving DecidableEq

/-- The pool's state.  `queued` are the not-yet-started files (with their
batch indices), `running` the at-most-`CONCURRENCY` active jobs,
`processedMeta` the `statesMeta[i].processedBytes` table (line 315),
`results` the `results` array (pushed in completion order, line 352), and
`trace` the SSE events pushed so far.  `admitted`, `snapshots`, `crashed`
and `encodeCalls` are instrumentation recording the admission order, the
terminal `state` of each job that returned from `processFile`, the indices
whose wrapper hit the unexpected-error catch (lines 356-360), and the
quality value each encode invocation received (line 199). -/
structure PoolSt where
  queued : List (ℕ × JobSpec)
  running : List RunningJob
  processedMeta : List ℕ
  results : List ResultEntry
  trace : List Event
  admitted : List ℕ
  snapshots : List (ℕ × FileState)
  crashed : List ℕ
  encodeCalls : List (ℕ × ℤ)
deriving DecidableEq

/-- The `while (running < CONCURRENCY && idxPtr < files.length)` admission
loop of `startNext` (line 336), returning the new running list, admission
record and remaining queue. -/
def admitLoop (C : ℕ) (running : List RunningJob) (admitted : List ℕ) :
    List (ℕ × JobSpec) → List RunningJob × List ℕ × List (ℕ × JobSpec)
  | [] => (running, admitted, [])
  | (i, spec) :: rest =>
    if running.length < C then
      admitLoop C (running ++ [⟨i, spec, initFileState spec i, spec.ticks⟩])
        (admitted ++ [i]) rest
    else (running, admitted, (i, spec) :: rest)

/-- Admission (`startNext`) applied to the pool state. -/
def admitJobs (C : ℕ) (s : PoolSt) : PoolSt :=
  let t := admitLoop C s.running s.admitted s.queued
  { s with running := t.1, admitted := t.2.1, queued := t.2.2 }

/-- Lines 317-323 (`reportOverall`): recompute the overall percentage from
the `statesMeta` table and push an `overall-progress` event. -/
def reportOverall (hasClient : Bool) (sizes processed : List ℕ) : List Event :=
  let totalOriginal := sizes.sum
  let totalProcessed := processed.sum
  let pct := if 0 < totalOriginal then
    min 100 (jsRound (totalProcessed * 100) totalOriginal) else 0
  if hasClient then [.overallProgress totalProcessed totalOriginal pct] else []

/-- Resolution of one running job `j` (at position `pos` of `running`):
either the wrapper's catch for an unexpected internal error (lines
356-360: log, `running--`, `startNext()` — nothing recorded), or the
normal wrapper body (lines 341-355: `processFile` returns, `statesMeta`
is updated, `reportOverall` pushes, the result is pushed, `running--`,
`startNext()`). -/
def resolveJob (C : ℕ) (hasClient : Bool) (quality : ℤ) (sizes : List ℕ)
    (s : PoolSt) (j : RunningJob) (pos : ℕ) : PoolSt :=
  if j.spec.crash then
    admitJobs C
      { s with
        running := s.running.eraseIdx pos,
        crashed := s.crashed ++ [j.idx] }
  else
    let fin := completeJob hasClient j.spec j.fs
    let processed := s.processedMeta.set j.idx fin.1.processedBytes
    let overallEvs := reportOverall hasClient sizes processed
    admitJobs C
      { s with
        running := s.running.eraseIdx pos,
        processedMeta := processed,
        results := s.results ++ [fin.2.2],
        trace := s.trace ++ fin.2.1 ++ overallEvs,
        snapshots := s.snapshots ++ [(j.idx, fin.1)],
        encodeCalls := s.encodeCalls ++ [(j.idx, max 1 (min 100 quality))] }

/-- One event-loop step of the chosen running job: fire its next estimator
tick (the interval callback, lines 183-192, followed by its
`reportIfNeeded`), or, when no tick remains, resolve its awaited work. -/
def stepJob (C : ℕ) (hasClient : Bool) (quality : ℤ) (sizes : List ℕ)
    (s : PoolSt) (j : RunningJob) (pos : ℕ) : PoolSt :=
  if j.spec.crash then resolveJob C hasClient quality sizes s j pos
  else
    match j.ticksLeft with
    | [] => resolveJob C hasClient quality sizes s j pos
    | r :: rest =>
      let fs1 := tickJob j.fs r
      let rep := reportIfNeeded hasClient fs1
      { s with running := s.running.eraseIdx pos ++ [{ j with fs := rep.1, ticksLeft := rest }],
               trace := s.trace ++ rep.2 }

/-- One scheduler step: the schedule entry picks which running job makes
progress.  With no running job the state is unchanged (the batch promise
has already resolved). -/
def step (C : ℕ) (hasClient : Bool) (quality : ℤ) (sizes : List ℕ)
    (s : PoolSt) (choice : ℕ) : PoolSt :=
  if h : s.running.length = 0 then s
  else
    let pos := choice % s.running.length
    stepJob C hasClient quality sizes s
      (s.running.get ⟨pos, Nat.mod_lt _ (Nat.pos_of_ne_zero h)⟩) pos

/-- Iterate scheduler steps along a schedule. -/
def runSteps (C : ℕ) (hasClient : Bool) (quality : ℤ) (sizes : List ℕ)
    (s : PoolSt) (sched : List ℕ) : PoolSt :=
  sched.foldl (step C hasClient quality sizes) s

/-- The pool state right after `startNext()` is first called (line 366):
all files queued in index order, then the initial admission. -/
def initSt (C : ℕ) (files : List JobSpec) : PoolSt :=
  admitJobs C
    { queued := files.enum, running := [], processedMeta := files.map fun _ => 0,
      results := [], trace := [], admitted := [], snapshots := [], crashed := [],
      encodeCalls := [] }

/-- Every submitted job has reached a terminal state and no job is queued:
the condition under which `startNext` resolves the batch promise
(line 333). -/
def finished (s : PoolSt) : Bool := s.queued.isEmpty && s.running.isEmpty

/-- Line 342: the quality clamp `Math.max(1, Math.min(100, Number(req.body.quality || 80)))`.
The parameter is the parsed numeric body value, absent when not supplied. -/
def clampQuality (qp : Option ℤ) : ℤ := max 1 (min 100 (qp.getD 80))

/-- Total original bytes of the final summary (line 371):
`results.reduce((s, r) => s + (r.originalSize || 0), 0)`. -/
def finalTotalOriginal (rs : List ResultEntry) : ℕ :=
  (rs.map fun r => r.originalSize.getD 0).sum

/-- Total processed bytes of the final summary (line 372):
`results.reduce((s, r) => s + (r.compressedSize || 0), 0)`. -/
def finalTotalProcessed (rs : List ResultEntry) : ℕ :=
  (rs.map fun r => r.compressedSize.getD 0).sum

/-- The final overall percentage (line 373): as during the run, but an
empty total is reported as 100. -/
def finalPct (rs : List ResultEntry) : ℕ :=
  if 0 < finalTotalOriginal rs then
    min 100 (jsRound (finalTotalProcessed rs * 100) (finalTotalOriginal rs))
  else 100

/-- Lines 369-383: after the batch promise resolves, push the final
`overall-progress` and the `done` event and return the synchronous
response.  The result is the response and the full event trace. -/
def finalize (hasClient : Bool) (s : PoolSt) : Response × List Event :=
  (⟨true, s.results⟩,
   s.trace ++
     if hasClient then
       [.overallProgress (finalTotalProcessed s.results)
          (finalTotalOriginal s.results) (finalPct s.results),
        .done s.results]
     else [])

/-- A full pool run of the endpoint body for a non-empty batch. -/
def poolRun (cfg : Option ℤ) (hasClient : Bool) (qp : Option ℤ)
    (files : List JobSpec) (sched : List ℕ) : PoolSt :=
  runSteps (CONCURRENCY cfg) hasClient (clampQuality qp) (files.map fun f => f.size)
    (initSt (CONCURRENCY cfg) files) sched

/-- Outcome of one request to `POST /api/compress-multi`. -/
inductive EndpointResult where
  | rejected (status : ℕ) (body : String)
  | completed (resp : Response) (trace : List Event)
deriving DecidableEq

/-- Endpoint `POST /api/compress-multi` (lines 306-384): validation (lines
310-312), then the pool run, then the final reports and the response.
`hasClient` models whether `req.query.id || req.body?.id` was supplied. -/
def compressMulti (cfg : Option ℤ) (hasClient : Bool) (qp : Option ℤ)
    (files : List JobSpec) (sched : List ℕ) : EndpointResult :=
  if files.length = 0 then
    .rejected 400 "No files uploaded (use field name files)"
  else
    let s := poolRun cfg hasClient qp files sched
    .completed (finalize hasClient s).1 (finalize hasClient s).2

/-- Whether the submission was rejected by validation. -/
def EndpointResult.isRejected : EndpointResult → Bool
  | .rejected _ _ => true
  | .completed _ _ => false

/-- The result indices of a completed submission, in response order. -/
def EndpointResult.resultIndices : EndpointResult → List ℕ
  | .rejected _ _ => []
  | .completed resp _ => resp.results.map fun r => r.index

/-- The trace of a completed submission. -/
def EndpointResult.traceOf : EndpointResult → List Event
  | .rejected _ _ => []
  | .completed _ t => t

/-- Endpoint `GET /sse` (lines 79-95): the stream request is rejected with 400
exactly when the session id is missing. -/
def sseRejected (id : Option String) : Bool := id.isNone

/-! ### Trace observations -/

/-- Event classifiers. -/
def Event.isFileProgress : Event → Bool
  | .fileProgress _ _ _ _ _ => true
  | _ => false

def Event.isFileDone : Event → Bool
  | .fileDone _ _ _ _ _ _ => true
  | _ => false

def Event.isOverall : Event → Bool
  | .overallProgress _ _ _ => true
  | _ => false

def Event.isDone : Event → Bool
  | .done _ => true
  | _ => false

/-- The `progress` values of the `file-progress` events of job `i`, in
push order. -/
def jobProgresses (t : List Event) (i : ℕ) : List ℕ :=
  t.filterMap fun e =>
    match e with
    | .fileProgress j _ _ _ p => if j = i then some p else none
    | _ => none

/-- Every `file-progress` or `file-done` event is immediately followed by
an `overall-progress` event: the adjacency the spec's aggregation contract
asks for ("recomputes ... whenever any Job reports a progress or
completion notification"). -/
def everyReportFollowedByOverall : List Event → Bool
  | [] => true
  | [e] => !(e.isFileProgress || e.isFileDone)
  | e :: f :: rest =>
    (!(e.isFileProgress || e.isFileDone) || f.isOverall)
      && everyReportFollowedByOverall (f :: rest)

/-- Every `file-done` event is immediately followed by an
`overall-progress` event. -/
def fileDoneThenOverall : List Event → Bool
  | [] => true
  | [e] => !e.isFileDone
  | e :: f :: rest => (!e.isFileDone || f.isOverall) && fileDoneThenOverall (f :: rest)

/-- Helper scan: every `overall-progress` is immediately preceded by a
`file-done`, given the previous event. -/
def overallAfterFileDoneAux : Event → List Event → Bool
  | _, [] => true
  | prev, e :: rest =>
    (!e.isOverall || prev.isFileDone) && overallAfterFileDoneAux e rest

/-- Every `overall-progress` in the running trace is immediately preceded
by a `file-done`: the aggregator recomputes only on job completion. -/
def overallAfterFileDone : List Event → Bool
  | [] => true
  | e :: rest => !e.isOverall && overallAfterFileDoneAux e rest

/-- An `overall-progress` event of the running trace is internally
consistent: its total is the batch's total original size, and its
percentage is the aggregation formula with the zero-total convention 0
(line 320). -/
def overallConsistent (sizesTotal : ℕ) : Event → Bool
  | .overallProgress p t pct =>
    t == sizesTotal
      && pct == (if 0 < t then min 100 (jsRound (p * 100) t) else 0)
  | _ => true

/-! ### Basic facts about the building blocks -/

theorem jsRound_zero {b : ℕ} (hb : 0 < b) : jsRound 0 b = 0 := by
  unfold jsRound
  exact Nat.div_eq_of_lt (by omega)

/-- The progress formula of the tick (line 188), factored out. -/
def pctOf (size processed : ℕ) : ℕ := jsRound (processed * 100) (max 1 size)

theorem pctOf_zero (size : ℕ) : pctOf size 0 = 0 := by
  simpa [pctOf] using jsRound_zero (b := max 1 size) (by omega)

theorem pctOf_mono {size p q : ℕ} (h : p ≤ q) : pctOf size p ≤ pctOf size q := by
  unfold pctOf jsRound
  exact Nat.div_le_div_right (by omega)

theorem lt_max_iff_nat {a b c : ℕ} : a < max b c ↔ a < b ∨ a < c := by omega

/-! The function `reportIfNeeded` only touches the two `lastReported` fields, and pushes
at most one `file-progress` event built from the current state. -/

theorem reportIfNeeded_fst (hc : Bool) (st : FileState) :
    (reportIfNeeded hc st).1 = st ∨
      (reportIfNeeded hc st).1 =
        { st with lastReportedPct := (st.progress : ℤ),
                  lastReportedBytes := (st.processedBytes : ℤ) } := by
  unfold reportIfNeeded
  dsimp only
  split
  · exact Or.inl rfl
  · exact Or.inr rfl

theorem reportIfNeeded_snd (hc : Bool) (st : FileState) :
    (reportIfNeeded hc st).2 = [] ∨
      (reportIfNeeded hc st).2 =
        [.fileProgress st.index st.originalName st.processedBytes st.originalSize
           st.progress] := by
  unfold reportIfNeeded
  dsimp only
  split
  · exact Or.inl rfl
  · split
    · exact Or.inr rfl
    · exact Or.inl rfl

theorem reportIfNeeded_snd_noclient (st : FileState) :
    (reportIfNeeded false st).2 = [] := by
  unfold reportIfNeeded
  dsimp only
  split
  · rfl
  · rfl

theorem reportIfNeeded_fst_index (hc : Bool) (st : FileState) :
    (reportIfNeeded hc st).1.index = st.index := by
  rcases reportIfNeeded_fst hc st with h | h <;> rw [h]

theorem reportIfNeeded_fst_progress (hc : Bool) (st : FileState) :
    (reportIfNeeded hc st).1.progress = st.progress := by
  rcases reportIfNeeded_fst hc st with h | h <;> rw [h]

theorem reportIfNeeded_fst_processedBytes (hc : Bool) (st : FileState) :
    (reportIfNeeded hc st).1.processedBytes = st.processedBytes := by
  rcases reportIfNeeded_fst hc st with h | h <;> rw [h]

theorem reportIfNeeded_fst_originalName (hc : Bool) (st : FileState) :
    (reportIfNeeded hc st).1.originalName = st.originalName := by
  rcases reportIfNeeded_fst hc st with h | h <;> rw [h]

theorem reportIfNeeded_fst_originalSize (hc : Bool) (st : FileState) :
    (reportIfNeeded hc st).1.originalSize = st.originalSize := by
  rcases reportIfNeeded_fst hc st with h | h <;> rw [h]

theorem reportIfNeeded_fst_isCompressing (hc : Bool) (st : FileState) :
    (reportIfNeeded hc st).1.isCompressing = st.isCompressing := by
  rcases reportIfNeeded_fst hc st with h | h <;> rw [h]

/-! Facts about a tick. -/

theorem tickJob_fields (st : FileState) (r : Rnd) :
    (tickJob st r).index = st.index ∧
    (tickJob st r).originalName = st.originalName ∧
    (tickJob st r).originalSize = st.originalSize ∧
    (tickJob st r).isCompressing = st.isCompressing ∧
    (tickJob st r).lastReportedPct = st.lastReportedPct ∧
    (tickJob st r).lastReportedBytes = st.lastReportedBytes := by
  unfold tickJob
  split <;> simp

/-- A tick keeps `processedBytes` under 90% of the original size. -/
theorem tickJob_cap (st : FileState) (r : Rnd) (h : st.isCompressing = true) :
    (tickJob st r).processedBytes ≤ 9 * st.originalSize / 10 := by
  unfold tickJob
  rw [h]
  simp

/-- A tick never shrinks `processedBytes` while it is below its cap. -/
theorem tickJob_processed_mono (st : FileState) (r : Rnd)
    (hcap : st.processedBytes ≤ 9 * st.originalSize / 10) :
    st.processedBytes ≤ (tickJob st r).processedBytes := by
  unfold tickJob
  split
  · exact le_refl _
  · simp only
    omega

/-- After a tick, `progress` is exactly the capped percentage formula. -/
theorem tickJob_progress (st : FileState) (r : Rnd) (h : st.isCompressing = true) :
    (tickJob st r).progress =
      min MAX_SIMULATED_PCT (pctOf st.originalSize (tickJob st r).processedBytes) := by
  unfold tickJob pctOf
  rw [h]
  simp

/-- A tick never lowers the progress value. -/
theorem tickJob_progress_mono (st : FileState) (r : Rnd)
    (hpct : st.progress = min MAX_SIMULATED_PCT (pctOf st.originalSize st.processedBytes))
    (hcap : st.processedBytes ≤ 9 * st.originalSize / 10) :
    st.progress ≤ (tickJob st r).progress := by
  by_cases h : st.isCompressing = true
  · rw [tickJob_progress st r h, hpct]
    have h1 := tickJob_processed_mono st r hcap
    have h2 := @pctOf_mono st.originalSize _ _ h1
    omega
  · unfold tickJob
    rw [if_pos (by revert h; cases st.isCompressing <;> simp)]

/-! Facts about job completion. -/

theorem failPath_fst (hc : Bool) (st : FileState) (msg : String) :
    (failPath hc st msg).1.processedBytes = 0 ∧
    (failPath hc st msg).1.progress = 0 ∧
    (failPath hc st msg).1.isCompressing = false ∧
    (failPath hc st msg).1.index = st.index := by
  unfold failPath
  dsimp only
  refine ⟨?_, ?_, ?_, ?_⟩
  · rw [reportIfNeeded_fst_processedBytes]
  · rw [reportIfNeeded_fst_progress]
  · rw [reportIfNeeded_fst_isCompressing]
  · rw [reportIfNeeded_fst_index]

theorem completeJob_fst_index (hc : Bool) (spec : JobSpec) (st : FileState) :
    (completeJob hc spec st).1.index = st.index := by
  unfold completeJob
  cases spec.encode with
  | ok n =>
    dsimp only
    split
    · rw [reportIfNeeded_fst_index]
    · exact (failPath_fst hc _ _).2.2.2
  | fail m => exact (failPath_fst hc _ _).2.2.2

theorem completeJob_fst_isCompressing (hc : Bool) (spec : JobSpec) (st : FileState) :
    (completeJob hc spec st).1.isCompressing = false := by
  unfold completeJob
  cases spec.encode with
  | ok n =>
    dsimp only
    split
    · rw [reportIfNeeded_fst_isCompressing]
    · exact (failPath_fst hc _ _).2.2.1
  | fail m => exact (failPath_fst hc _ _).2.2.1

/-- A failed job's terminal state has both progress figures reset to 0. -/
theorem completeJob_failed_zero (hc : Bool) (spec : JobSpec) (st : FileState)
    (hf : jobFailed spec) :
    (completeJob hc spec st).1.processedBytes = 0 ∧
    (completeJob hc spec st).1.progress = 0 := by
  unfold completeJob
  rcases hf with ⟨-, hf⟩
  rcases hf with ⟨m, hm⟩ | hp
  · rw [hm]
    exact ⟨(failPath_fst hc _ _).1, (failPath_fst hc _ _).2.1⟩
  · cases he : spec.encode with
    | ok n =>
      dsimp only
      rw [hp]
      simp only [Bool.false_eq_true, if_false]
      exact ⟨(failPath_fst hc _ _).1, (failPath_fst hc _ _).2.1⟩
    | fail m => exact ⟨(failPath_fst hc _ _).1, (failPath_fst hc _ _).2.1⟩

theorem completeJob_result_index (hc : Bool) (spec : JobSpec) (st : FileState) :
    (completeJob hc spec st).2.2.index = st.index := by
  unfold completeJob failPath
  cases spec.encode with
  | ok n =>
    dsimp only
    split
    · rw [reportIfNeeded_fst_index]
    · rw [reportIfNeeded_fst_index]
  | fail m =>
    dsimp only
    rw [reportIfNeeded_fst_index]

/-- The events of a completion: a possibly-empty throttled `file-progress`
batch followed (with a client) by exactly one `file-done`. -/
theorem completeJob_events (hc : Bool) (spec : JobSpec) (st : FileState) :
    (hc = false → (completeJob hc spec st).2.1 = []) ∧
    (hc = true → ∃ (rep : List Event) (fd : Event),
      (completeJob hc spec st).2.1 = rep ++ [fd] ∧ fd.isFileDone = true ∧
      ((rep = []) ∨ ∃ p, rep =
        [.fileProgress st.index st.originalName ((completeJob hc spec st).1.processedBytes)
           st.originalSize p] ∧ p = (completeJob hc spec st).1.progress)) := by
  constructor
  · intro h
    subst h
    unfold completeJob failPath
    cases spec.encode with
    | ok n =>
      dsimp only
      split
      · rw [reportIfNeeded_snd_noclient]
        simp
      · rw [reportIfNeeded_snd_noclient]
        simp
    | fail m =>
      dsimp only
      rw [reportIfNeeded_snd_noclient]
      simp
  · intro h
    subst h
    unfold completeJob failPath
    cases spec.encode with
    | ok n =>
      dsimp only
      split
      · refine ⟨(reportIfNeeded true _).2, Event.fileDone _ _ _ _ _ _, rfl, rfl, ?_⟩
        rcases reportIfNeeded_snd true
            { st with compressedSize := some n, processedBytes := n, progress := 100,
                      isCompressing := false,
                      outPath := some (outPathFor spec st.index) } with h2 | h2
        · exact Or.inl h2
        · refine Or.inr ⟨100, ?_, ?_⟩
          · rw [h2]
            simp [reportIfNeeded_fst_processedBytes]
          · rw [reportIfNeeded_fst_progress]
      · refine ⟨(reportIfNeeded true _).2, Event.fileDone _ _ _ _ _ _, rfl, rfl, ?_⟩
        rcases reportIfNeeded_snd true
            { st with compressedSize := some n, processedBytes := 0, progress := 0,
                      isCompressing := false, error := some spec.persistErrMsg } with h2 | h2
        · exact Or.inl h2
        · refine Or.inr ⟨0, ?_, ?_⟩
          · rw [h2]
            simp [reportIfNeeded_fst_processedBytes]
          · rw [reportIfNeeded_fst_progress]
    | fail m =>
      dsimp only
      refine ⟨(reportIfNeeded true _).2, Event.fileDone _ _ _ _ _ _, rfl, rfl, ?_⟩
      rcases reportIfNeeded_snd true
          { st with error := some m, isCompressing := false, progress := 0,
                    processedBytes := 0 } with h2 | h2
      · exact Or.inl h2
      · refine Or.inr ⟨0, ?_, ?_⟩
        · rw [h2]
          simp [reportIfNeeded_fst_processedBytes]
        · rw [reportIfNeeded_fst_progress]

/-! ### Trace bookkeeping lemmas -/

theorem jobProgresses_append (t u : List Event) (i : ℕ) :
    jobProgresses (t ++ u) i = jobProgresses t i ++ jobProgresses u i :=
  List.filterMap_append ..

theorem jobProgresses_nil (i : ℕ) : jobProgresses [] i = [] := rfl

theorem jobProgresses_fileProgress (j : ℕ) (nm : String) (pb os p i : ℕ) :
    jobProgresses [.fileProgress j nm pb os p] i = if j = i then [p] else [] := by
  unfold jobProgresses
  split <;> simp_all [List.filterMap]

theorem jobProgresses_not_fp (e : Event) (i : ℕ) (h : e.isFileProgress = false) :
    jobProgresses [e] i = [] := by
  cases e <;> simp_all [jobProgresses, List.filterMap, Event.isFileProgress]

/-- Predicate `lastLe L p`: the last reported progress (if any) is at most `p`. -/
def lastLe (L : List ℕ) (p : ℕ) : Prop := ∀ x ∈ L.getLast?, x ≤ p

theorem lastLe_nil (p : ℕ) : lastLe [] p := by
  intro x hx
  simp at hx

theorem lastLe_concat (L : List ℕ) (v p : ℕ) (h : v ≤ p) : lastLe (L ++ [v]) p := by
  intro x hx
  rw [List.getLast?_concat] at hx
  simp at hx
  omega

theorem lastLe_mono {L : List ℕ} {p q : ℕ} (h : lastLe L p) (hpq : p ≤ q) :
    lastLe L q := fun x hx => le_trans (h x hx) hpq

theorem chain_concat_of_lastLe {L : List ℕ} {v p : ℕ}
    (hc : List.Chain' (· ≤ ·) L) (hl : lastLe L p) (hpv : p ≤ v) :
    List.Chain' (· ≤ ·) (L ++ [v]) := by
  rw [List.chain'_append]
  refine ⟨hc, List.chain'_singleton v, ?_⟩
  intro x hx y hy
  simp at hy
  subst hy
  exact le_trans (hl x hx) hpv

/-! Append lemmas for the adjacency scans. -/

theorem fileDoneThenOverall_append {t u : List Event}
    (ht : fileDoneThenOverall t = true) (hu : fileDoneThenOverall u = true) :
    fileDoneThenOverall (t ++ u) = true := by
  induction t with
  | nil => exact hu
  | cons e rest ih =>
    cases rest with
    | nil =>
      cases u with
      | nil => rw [List.append_nil]; exact ht
      | cons f us =>
        unfold fileDoneThenOverall at ht ⊢
        simp only [List.cons_append, List.nil_append]
        rw [Bool.and_eq_true]
        refine ⟨?_, hu⟩
        rw [ht]
        rfl
    | cons f rest2 =>
      unfold fileDoneThenOverall at ht ⊢
      rw [Bool.and_eq_true] at ht
      simp only [List.cons_append]
      rw [Bool.and_eq_true]
      exact ⟨ht.1, ih ht.2⟩

theorem everyReportFollowedByOverall_append {t u : List Event}
    (ht : everyReportFollowedByOverall t = true)
    (hu : everyReportFollowedByOverall u = true) :
    everyReportFollowedByOverall (t ++ u) = true := by
  induction t with
  | nil => exact hu
  | cons e rest ih =>
    cases rest with
    | nil =>
      cases u with
      | nil => rw [List.append_nil]; exact ht
      | cons f us =>
        unfold everyReportFollowedByOverall at ht ⊢
        simp only [List.cons_append, List.nil_append]
        rw [Bool.and_eq_true]
        refine ⟨?_, hu⟩
        rw [ht]
        rfl
    | cons f rest2 =>
      unfold everyReportFollowedByOverall at ht ⊢
      rw [Bool.and_eq_true] at ht
      simp only [List.cons_append]
      rw [Bool.and_eq_true]
      exact ⟨ht.1, ih ht.2⟩

theorem overallAfterFileDoneAux_append {prev : Event} {t u : List Event}
    (ht : overallAfterFileDoneAux prev t = true)
    (hu : overallAfterFileDone u = true) :
    overallAfterFileDoneAux prev (t ++ u) = true := by
  induction t generalizing prev with
  | nil =>
    cases u with
    | nil => rfl
    | cons f us =>
      unfold overallAfterFileDone at hu
      rw [Bool.and_eq_true] at hu
      simp only [List.nil_append]
      unfold overallAfterFileDoneAux
      rw [Bool.and_eq_true]
      exact ⟨by rw [hu.1]; rfl, hu.2⟩
  | cons e rest ih =>
    unfold overallAfterFileDoneAux at ht ⊢
    rw [Bool.and_eq_true] at ht
    simp only [List.cons_append]
    rw [Bool.and_eq_true]
    exact ⟨ht.1, ih ht.2⟩

theorem overallAfterFileDone_append {t u : List Event}
    (ht : overallAfterFileDone t = true) (hu : overallAfterFileDone u = true) :
    overallAfterFileDone (t ++ u) = true := by
  cases t with
  | nil => simpa
  | cons e rest =>
    unfold overallAfterFileDone at ht ⊢
    rw [Bool.and_eq_true] at ht
    simp only [List.cons_append]
    rw [Bool.and_eq_true]
    exact ⟨ht.1, overallAfterFileDoneAux_append ht.2 hu⟩

/-! Permutation helpers for removing a running job by position. -/

theorem perm_get_cons_eraseIdx (l : List α) (pos : ℕ) (h : pos < l.length) :
    l.Perm (l.get ⟨pos, h⟩ :: l.eraseIdx pos) := by
  induction l generalizing pos with
  | nil => simp at h
  | cons x t ih =>
    cases pos with
    | zero => rfl
    | succ p =>
      have hp : p < t.length := by simpa using h
      have h1 : (x :: t).get ⟨p + 1, h⟩ = t.get ⟨p, hp⟩ := rfl
      have h2 : (x :: t).eraseIdx (p + 1) = x :: t.eraseIdx p := rfl
      rw [h1, h2]
      exact ((ih p hp).cons x).trans (List.Perm.swap _ _ _)

theorem eraseIdx_map (f : α → β) (l : List α) (pos : ℕ) :
    (l.eraseIdx pos).map f = (l.map f).eraseIdx pos := by
  induction l generalizing pos with
  | nil => rfl
  | cons x t ih =>
    cases pos with
    | zero => rfl
    | succ p => simpa using ih p

/-! ### The pool invariant -/

/-- The behaviour of the file at batch index `i`. -/
def specAt (files : List JobSpec) (i : ℕ) : JobSpec := files.getD i default

/-- Invariant of one running job. -/
structure RunInv (files : List JobSpec) (trace : List Event) (j : RunningJob) :
    Prop where
  spec_eq : j.spec = specAt files j.idx
  fs_index : j.fs.index = j.idx
  fs_name : j.fs.originalName = j.spec.originalname
  fs_size : j.fs.originalSize = j.spec.size
  fs_compressing : j.fs.isCompressing = true
  fs_cap : j.fs.processedBytes ≤ 9 * j.fs.originalSize / 10
  fs_pct : j.fs.progress = min MAX_SIMULATED_PCT (pctOf j.fs.originalSize j.fs.processedBytes)
  chain : List.Chain' (· ≤ ·) (jobProgresses trace j.idx)
  lastle : lastLe (jobProgresses trace j.idx) j.fs.progress
  crash_silent : j.spec.crash = true → jobProgresses trace j.idx = []

/-- Invariant of one terminal snapshot. -/
structure SnapInv (files : List JobSpec) (trace : List Event) (q : ℕ × FileState) :
    Prop where
  nocrash : (specAt files q.1).crash = false
  not_compressing : q.2.isCompressing = false
  failed_zero : jobFailed (specAt files q.1) →
    q.2.processedBytes = 0 ∧ q.2.progress = 0
  chain_drop : List.Chain' (· ≤ ·) (jobProgresses trace q.1).dropLast
  chain_full : jobSucceeded (specAt files q.1) →
    List.Chain' (· ≤ ·) (jobProgresses trace q.1)

/-- The pool invariant, preserved by every scheduler step. -/
structure PoolInv (C : ℕ) (hasClient : Bool) (quality : ℤ) (files : List JobSpec)
    (s : PoolSt) : Prop where
  run_le : s.running.length ≤ C
  queued_eq : s.queued = files.enum.drop s.admitted.length
  admitted_eq : s.admitted = List.range s.admitted.length
  perm : (s.queued.map Prod.fst ++ s.running.map RunningJob.idx
      ++ s.snapshots.map Prod.fst ++ s.crashed).Perm (List.range files.length)
  res_idx : s.results.map ResultEntry.index = s.snapshots.map Prod.fst
  run_inv : ∀ j ∈ s.running, RunInv files s.trace j
  queued_trace : ∀ pr ∈ s.queued, jobProgresses s.trace pr.1 = []
  snap_inv : ∀ q ∈ s.snapshots, SnapInv files s.trace q
  crash_inv : ∀ i ∈ s.crashed, (specAt files i).crash = true ∧
    jobProgresses s.trace i = []
  no_done : ∀ e ∈ s.trace, e.isDone = false
  fdto : fileDoneThenOverall s.trace = true
  oafd : overallAfterFileDone s.trace = true
  oc : ∀ e ∈ s.trace, overallConsistent (files.map fun f => f.size).sum e = true
  enc : ∀ c ∈ s.encodeCalls, c.2 = max 1 (min 100 quality)
  noclient : hasClient = false → s.trace = []

/-- A queue entry drawn from `files.enum` carries the file at its index. -/
theorem enum_entry_spec {files : List JobSpec} {pr : ℕ × JobSpec}
    (h : pr ∈ files.enum) : pr.2 = specAt files pr.1 := by
  rw [List.mem_enum_iff_getElem?] at h
  unfold specAt
  rw [List.getD_eq_getElem?_getD, h]
  rfl

/-- The invariant `RunInv` holds for a freshly admitted job. -/
theorem runInv_init (files : List JobSpec) (trace : List Event) (i : ℕ)
    (spec : JobSpec) (hspec : spec = specAt files i)
    (htrace : jobProgresses trace i = []) :
    RunInv files trace ⟨i, spec, initFileState spec i, spec.ticks⟩ := by
  refine ⟨hspec, rfl, rfl, rfl, rfl, Nat.zero_le _, ?_, ?_, ?_, ?_⟩
  · show (0 : ℕ) = min MAX_SIMULATED_PCT (pctOf spec.size 0)
    rw [pctOf_zero]
    rfl
  · rw [htrace]
    exact List.chain'_nil
  · rw [htrace]
    exact lastLe_nil _
  · intro _
    exact htrace

/-- What the admission loop establishes, given what held before it. -/
theorem admitLoop_inv (C : ℕ) (files : List JobSpec) (trace : List Event) :
    ∀ (q : List (ℕ × JobSpec)) (running : List RunningJob) (admitted : List ℕ),
    q = files.enum.drop admitted.length →
    admitted = List.range admitted.length →
    running.length ≤ C →
    (∀ j ∈ running, RunInv files trace j) →
    (∀ pr ∈ q, jobProgresses trace pr.1 = []) →
    (admitLoop C running admitted q).2.2 =
        files.enum.drop (admitLoop C running admitted q).2.1.length ∧
    (admitLoop C running admitted q).2.1 =
        List.range (admitLoop C running admitted q).2.1.length ∧
    (admitLoop C running admitted q).1.length ≤ C ∧
    (∀ j ∈ (admitLoop C running admitted q).1, RunInv files trace j) ∧
    (∀ pr ∈ (admitLoop C running admitted q).2.2, jobProgresses trace pr.1 = []) ∧
    ((admitLoop C running admitted q).2.2.map Prod.fst
        ++ (admitLoop C running admitted q).1.map RunningJob.idx).Perm
      (q.map Prod.fst ++ running.map RunningJob.idx) := by
  intro q
  induction q with
  | nil =>
    intro running admitted h1 h2 h3 h4 h5
    simp only [admitLoop]
    exact ⟨h1, h2, h3, h4, fun pr hpr => absurd hpr (by simp), List.Perm.refl _⟩
  | cons pr rest ih =>
    intro running admitted h1 h2 h3 h4 h5
    obtain ⟨i, spec⟩ := pr
    simp only [admitLoop]
    by_cases hC : running.length < C
    · rw [if_pos hC]
      have hq : files.enum.drop admitted.length = (i, spec) :: rest := h1.symm
      have hget : files.enum.get? admitted.length = some (i, spec) := by
        have hx : (files.enum.drop admitted.length).get? 0 = some (i, spec) := by
          rw [hq]
          rfl
        rw [List.get?_drop] at hx
        simpa using hx
      have hi : i = admitted.length ∧ spec = specAt files i := by
        rw [List.get?_enum] at hget
        cases hg : files.get? admitted.length with
        | none => rw [hg] at hget; exact absurd hget (by simp)
        | some a =>
          rw [hg] at hget
          have h9 : some (admitted.length, a) = some (i, spec) := hget
          have h10 := Option.some.inj h9
          have hk : admitted.length = i := congrArg Prod.fst h10
          have ha : a = spec := congrArg Prod.snd h10
          refine ⟨hk.symm, ?_⟩
          unfold specAt
          rw [List.getD_eq_getElem?_getD, ← List.get?_eq_getElem?, ← hk, hg, ha]
          rfl
      have hrest : rest = files.enum.drop (admitted.length + 1) := by
        have hx := congrArg List.tail hq
        rw [List.tail_drop] at hx
        exact hx.symm
      have happlied := ih (running ++ [⟨i, spec, initFileState spec i, spec.ticks⟩])
        (admitted ++ [i]) ?_ ?_ ?_ ?_ ?_
      · refine ⟨happlied.1, happlied.2.1, happlied.2.2.1, happlied.2.2.2.1,
          happlied.2.2.2.2.1, ?_⟩
        refine happlied.2.2.2.2.2.trans ?_
        rw [List.map_append]
        have p1 : (rest.map Prod.fst ++ (running.map RunningJob.idx ++ [i])).Perm
            (rest.map Prod.fst ++ (i :: running.map RunningJob.idx)) :=
          List.Perm.append_left _ (List.perm_append_singleton _ _)
        exact p1.trans List.perm_middle
      · rw [List.length_append, List.length_singleton, hrest]
      · rw [List.length_append, List.length_singleton]
        rw [List.range_succ, ← h2, ← hi.1]
      · rw [List.length_append, List.length_singleton]
        omega
      · intro j hj
        rcases List.mem_append.1 hj with hj | hj
        · exact h4 j hj
        · rw [List.mem_singleton] at hj
          subst hj
          exact runInv_init files trace i spec hi.2 (h5 (i, spec) (List.mem_cons_self _ _))
      · intro pr hpr
        exact h5 pr (List.mem_cons_of_mem _ hpr)
    · rw [if_neg hC]
      refine ⟨h1, h2, h3, h4, h5, List.Perm.refl _⟩

/-- Admission preserves the pool invariant. -/
theorem admitJobs_inv {C : ℕ} {hc : Bool} {q : ℤ} {files : List JobSpec} {s : PoolSt}
    (h : PoolInv C hc q files s) : PoolInv C hc q files (admitJobs C s) := by
  obtain ⟨run_le, queued_eq, admitted_eq, perm, res_idx, run_inv, queued_trace,
    snap_inv, crash_inv, no_done, fdto, oafd, oc, enc, noclient⟩ := h
  have hl := admitLoop_inv C files s.trace s.queued s.running s.admitted
    queued_eq admitted_eq run_le run_inv queued_trace
  refine ⟨hl.2.2.1, hl.1, hl.2.1, ?_, res_idx, hl.2.2.2.1, hl.2.2.2.2.1,
    snap_inv, crash_inv, no_done, fdto, oafd, oc, enc, noclient⟩
  have h6 := hl.2.2.2.2.2
  have h7 : ((((admitLoop C s.running s.admitted s.queued).2.2.map Prod.fst
      ++ (admitLoop C s.running s.admitted s.queued).1.map RunningJob.idx)
      ++ s.snapshots.map Prod.fst) ++ s.crashed).Perm
      ((((s.queued.map Prod.fst ++ s.running.map RunningJob.idx)
      ++ s.snapshots.map Prod.fst) ++ s.crashed)) :=
    List.Perm.append_right _ (List.Perm.append_right _ h6)
  exact h7.trans perm

/-! ### Freshness of the stepped job's index -/

theorem fresh_of_nodup {Q E S Cr : List ℕ} {i : ℕ}
    (h : (Q ++ (i :: E) ++ S ++ Cr).Nodup) :
    i ∉ Q ∧ i ∉ E ∧ i ∉ S ∧ i ∉ Cr := by
  have d1 := List.disjoint_of_nodup_append h
  have h1 := (List.nodup_append.1 h).1
  have d2 := List.disjoint_of_nodup_append h1
  have h2 := (List.nodup_append.1 h1).1
  have d3 := List.disjoint_of_nodup_append h2
  have h3 := (List.nodup_append.1 h2).2.1
  have hiE : i ∉ E := (List.nodup_cons.1 h3).1
  have hiQ : i ∉ Q := fun hm => d3 hm (List.mem_cons_self _ _)
  have hiA2 : i ∈ Q ++ (i :: E) := List.mem_append.2 (Or.inr (List.mem_cons_self _ _))
  have hiS : i ∉ S := fun hm => d2 hiA2 hm
  have hiA1 : i ∈ (Q ++ (i :: E)) ++ S := List.mem_append.2 (Or.inl hiA2)
  have hiCr : i ∉ Cr := fun hm => d1 hiA1 hm
  exact ⟨hiQ, hiE, hiS, hiCr⟩

/-! ### Event classifier implications -/

theorem isFileDone_flags {e : Event} (h : e.isFileDone = true) :
    e.isOverall = false ∧ e.isDone = false ∧ e.isFileProgress = false := by
  cases e <;> simp_all [Event.isFileDone, Event.isOverall, Event.isDone,
    Event.isFileProgress]

theorem overallConsistent_of_not_overall {T : ℕ} {e : Event}
    (h : e.isOverall = false) : overallConsistent T e = true := by
  cases e <;> simp_all [Event.isOverall, overallConsistent]

/-! ### jobProgresses of the event blocks -/

theorem jobProgresses_reportOverall (hc : Bool) (sizes processed : List ℕ) (i : ℕ) :
    jobProgresses (reportOverall hc sizes processed) i = [] := by
  unfold reportOverall
  dsimp only
  split <;> rfl

theorem reportOverall_false (sizes processed : List ℕ) :
    reportOverall false sizes processed = [] := rfl

theorem reportOverall_true (sizes processed : List ℕ) :
    reportOverall true sizes processed =
      [.overallProgress processed.sum sizes.sum
        (if 0 < sizes.sum then min 100 (jsRound (processed.sum * 100) sizes.sum)
         else 0)] := rfl

theorem completeJob_jp (hc : Bool) (spec : JobSpec) (st : FileState) (i : ℕ) :
    jobProgresses (completeJob hc spec st).2.1 i = [] ∨
    (st.index = i ∧ jobProgresses (completeJob hc spec st).2.1 i
        = [(completeJob hc spec st).1.progress]) := by
  cases hc with
  | false =>
    rw [(completeJob_events false spec st).1 rfl]
    exact Or.inl rfl
  | true =>
    obtain ⟨rep, fd, hsplit, hfd, hrep⟩ := (completeJob_events true spec st).2 rfl
    rw [hsplit, jobProgresses_append]
    rw [jobProgresses_not_fp fd i (isFileDone_flags hfd).2.2]
    rcases hrep with hrep | ⟨p, hrep, hp⟩
    · rw [hrep]
      exact Or.inl rfl
    · rw [hrep, jobProgresses_fileProgress]
      by_cases hidx : st.index = i
      · rw [if_pos hidx]
        refine Or.inr ⟨hidx, ?_⟩
        rw [hp]
        rfl
      · rw [if_neg hidx]
        exact Or.inl rfl

theorem completeJob_jp_ne (hc : Bool) (spec : JobSpec) (st : FileState) (i : ℕ)
    (hne : st.index ≠ i) :
    jobProgresses (completeJob hc spec st).2.1 i = [] := by
  rcases completeJob_jp hc spec st i with h | ⟨h, -⟩
  · exact h
  · exact absurd h hne

/-! ### Scan predicates over the completion block -/

theorem completion_block_fdto (hc : Bool) (spec : JobSpec) (st : FileState)
    (sizes processed : List ℕ) :
    fileDoneThenOverall
      ((completeJob hc spec st).2.1 ++ reportOverall hc sizes processed) = true := by
  cases hc with
  | false =>
    rw [(completeJob_events false spec st).1 rfl, reportOverall_false]
    rfl
  | true =>
    obtain ⟨rep, fd, hsplit, hfd, hrep⟩ := (completeJob_events true spec st).2 rfl
    rw [hsplit, reportOverall_true]
    have hfd2 := isFileDone_flags hfd
    rcases hrep with hrep | ⟨p, hrep, -⟩ <;> rw [hrep] <;>
      simp [fileDoneThenOverall, Event.isFileDone, Event.isOverall, hfd2.2.1]

theorem completion_block_oafd (hc : Bool) (spec : JobSpec) (st : FileState)
    (sizes processed : List ℕ) :
    overallAfterFileDone
      ((completeJob hc spec st).2.1 ++ reportOverall hc sizes processed) = true := by
  cases hc with
  | false =>
    rw [(completeJob_events false spec st).1 rfl, reportOverall_false]
    rfl
  | true =>
    obtain ⟨rep, fd, hsplit, hfd, hrep⟩ := (completeJob_events true spec st).2 rfl
    rw [hsplit, reportOverall_true]
    have hfd2 := isFileDone_flags hfd
    rcases hrep with hrep | ⟨p, hrep, -⟩ <;> rw [hrep]
    · simp [overallAfterFileDone, overallAfterFileDoneAux, Event.isOverall]
      exact ⟨hfd2.1, hfd⟩
    · simp [overallAfterFileDone, overallAfterFileDoneAux, Event.isOverall,
        Event.isFileProgress]
      exact ⟨Or.inl hfd2.1, hfd⟩

theorem completion_block_no_done (hc : Bool) (spec : JobSpec) (st : FileState)
    (sizes processed : List ℕ) :
    ∀ e ∈ (completeJob hc spec st).2.1 ++ reportOverall hc sizes processed,
      e.isDone = false := by
  cases hc with
  | false =>
    rw [(completeJob_events false spec st).1 rfl, reportOverall_false]
    intro e he
    cases he
  | true =>
    obtain ⟨rep, fd, hsplit, hfd, hrep⟩ := (completeJob_events true spec st).2 rfl
    rw [hsplit, reportOverall_true]
    have hfd2 := isFileDone_flags hfd
    intro e he
    rw [List.mem_append] at he
    rcases he with he | he
    · rcases hrep with hrep | ⟨p, hrep, -⟩ <;> rw [hrep] at he
      · rw [List.nil_append, List.mem_singleton] at he
        subst he
        exact hfd2.2.1
      · rw [List.cons_append, List.mem_cons] at he
        rcases he with he | he
        · subst he
          rfl
        · rw [List.nil_append, List.mem_singleton] at he
          subst he
          exact hfd2.2.1
    · rw [List.mem_singleton] at he
      subst he
      rfl

theorem completion_block_oc (hc : Bool) (spec : JobSpec) (st : FileState)
    (sizes processed : List ℕ) :
    ∀ e ∈ (completeJob hc spec st).2.1 ++ reportOverall hc sizes processed,
      overallConsistent sizes.sum e = true := by
  cases hc with
  | false =>
    rw [(completeJob_events false spec st).1 rfl, reportOverall_false]
    intro e he
    cases he
  | true =>
    obtain ⟨rep, fd, hsplit, hfd, hrep⟩ := (completeJob_events true spec st).2 rfl
    rw [hsplit, reportOverall_true]
    have hfd2 := isFileDone_flags hfd
    intro e he
    rw [List.mem_append] at he
    rcases he with he | he
    · rcases hrep with hrep | ⟨p, hrep, -⟩ <;> rw [hrep] at he
      · rw [List.nil_append, List.mem_singleton] at he
        subst he
        exact overallConsistent_of_not_overall hfd2.1
      · rw [List.cons_append, List.mem_cons] at he
        rcases he with he | he
        · subst he
          rfl
        · rw [List.nil_append, List.mem_singleton] at he
          subst he
          exact overallConsistent_of_not_overall hfd2.1
    · rw [List.mem_singleton] at he
      subst he
      simp [overallConsistent]

/-! ### Permutation shuffles for a resolving job -/

theorem perm_shuffle_tick {Q R E Sm Cr rng : List ℕ} {i : ℕ}
    (hR : R.Perm (i :: E)) (hold : (Q ++ R ++ Sm ++ Cr).Perm rng) :
    (Q ++ (E ++ [i]) ++ Sm ++ Cr).Perm rng := by
  have h1 : (E ++ [i]).Perm R := (List.perm_append_singleton i E).trans hR.symm
  exact (List.Perm.append_right Cr (List.Perm.append_right Sm
    (List.Perm.append_left Q h1))).trans hold

theorem perm_shuffle_snap {Q R E Sm Cr rng : List ℕ} {i : ℕ}
    (hR : R.Perm (i :: E)) (hold : (Q ++ R ++ Sm ++ Cr).Perm rng) :
    (Q ++ E ++ (Sm ++ [i]) ++ Cr).Perm rng := by
  refine List.Perm.trans ?_ hold
  rw [← Multiset.coe_eq_coe] at hR ⊢
  have h1 : (↑(Q ++ E ++ (Sm ++ [i]) ++ Cr) : Multiset ℕ)
      = ↑Q + ↑E + (↑Sm + ↑[i]) + ↑Cr := rfl
  have h2 : (↑(Q ++ R ++ Sm ++ Cr) : Multiset ℕ) = ↑Q + ↑R + ↑Sm + ↑Cr := rfl
  have h3 : (↑R : Multiset ℕ) = ↑[i] + ↑E := by
    rw [hR]
    rfl
  rw [h1, h2, h3]
  abel

theorem perm_shuffle_crash {Q R E Sm Cr rng : List ℕ} {i : ℕ}
    (hR : R.Perm (i :: E)) (hold : (Q ++ R ++ Sm ++ Cr).Perm rng) :
    (Q ++ E ++ Sm ++ (Cr ++ [i])).Perm rng := by
  refine List.Perm.trans ?_ hold
  rw [← Multiset.coe_eq_coe] at hR ⊢
  have h1 : (↑(Q ++ E ++ Sm ++ (Cr ++ [i])) : Multiset ℕ)
      = ↑Q + ↑E + ↑Sm + (↑Cr + ↑[i]) := rfl
  have h2 : (↑(Q ++ R ++ Sm ++ Cr) : Multiset ℕ) = ↑Q + ↑R + ↑Sm + ↑Cr := rfl
  have h3 : (↑R : Multiset ℕ) = ↑[i] + ↑E := by
    rw [hR]
    rfl
  rw [h1, h2, h3]
  abel

/-- The success path pins `progress` to 100 in the terminal state. -/
theorem completeJob_success_progress (hc : Bool) (spec : JobSpec) (st : FileState)
    (hs : jobSucceeded spec) : (completeJob hc spec st).1.progress = 100 := by
  obtain ⟨-, ⟨n, hn⟩, hp⟩ := hs
  unfold completeJob
  rw [hn]
  dsimp only
  rw [if_pos hp]
  rw [reportIfNeeded_fst_progress]

/-- A running job's invariant is insensitive to appended events of other
jobs. -/
theorem runInv_trace_ext {files : List JobSpec} {trace u : List Event}
    {j2 : RunningJob} (h : RunInv files trace j2)
    (hu : jobProgresses u j2.idx = []) : RunInv files (trace ++ u) j2 := by
  obtain ⟨h1, h2, h3, h4, h5, h6, h7, h8, h9, h10⟩ := h
  refine ⟨h1, h2, h3, h4, h5, h6, h7, ?_, ?_, ?_⟩
  · rw [jobProgresses_append, hu, List.append_nil]
    exact h8
  · rw [jobProgresses_append, hu, List.append_nil]
    exact h9
  · intro hcr
    rw [jobProgresses_append, hu, List.append_nil]
    exact h10 hcr

/-- A snapshot's invariant is insensitive to appended events of other
jobs. -/
theorem snapInv_trace_ext {files : List JobSpec} {trace u : List Event}
    {qq : ℕ × FileState} (h : SnapInv files trace qq)
    (hu : jobProgresses u qq.1 = []) : SnapInv files (trace ++ u) qq := by
  obtain ⟨h1, h2, h3, h4, h5⟩ := h
  refine ⟨h1, h2, h3, ?_, ?_⟩
  · rw [jobProgresses_append, hu, List.append_nil]
    exact h4
  · intro hs
    rw [jobProgresses_append, hu, List.append_nil]
    exact h5 hs

/-- Resolution of a running job preserves the pool invariant. -/
theorem resolveJob_inv {C : ℕ} {hc : Bool} {q : ℤ} {files : List JobSpec}
    {s : PoolSt} (h : PoolInv C hc q files s) (pos : ℕ)
    (hpos : pos < s.running.length) :
    PoolInv C hc q files
      (resolveJob C hc q (files.map fun f => f.size) s
        (s.running.get ⟨pos, hpos⟩) pos) := by
  have hjmem : s.running.get ⟨pos, hpos⟩ ∈ s.running := List.get_mem _ _ hpos
  have hRI := h.run_inv _ hjmem
  have hpermR : s.running.Perm
      (s.running.get ⟨pos, hpos⟩ :: s.running.eraseIdx pos) :=
    perm_get_cons_eraseIdx _ pos hpos
  have hmapR : (s.running.map RunningJob.idx).Perm
      ((s.running.get ⟨pos, hpos⟩).idx
        :: (s.running.eraseIdx pos).map RunningJob.idx) := by
    have hm := hpermR.map RunningJob.idx
    simpa using hm
  have hcongr : (s.queued.map Prod.fst ++ s.running.map RunningJob.idx
      ++ s.snapshots.map Prod.fst ++ s.crashed).Perm
      (s.queued.map Prod.fst
        ++ ((s.running.get ⟨pos, hpos⟩).idx
              :: (s.running.eraseIdx pos).map RunningJob.idx)
        ++ s.snapshots.map Prod.fst ++ s.crashed) :=
    List.Perm.append_right _ (List.Perm.append_right _ (List.Perm.append_left _ hmapR))
  have hperm2 := hcongr.symm.trans h.perm
  have hnodup := hperm2.symm.nodup (List.nodup_range _)
  have hfresh := fresh_of_nodup hnodup
  have herased_ne : ∀ j2 ∈ s.running.eraseIdx pos,
      j2.idx ≠ (s.running.get ⟨pos, hpos⟩).idx := by
    intro j2 hm heq
    exact hfresh.2.1 (heq ▸ List.mem_map_of_mem RunningJob.idx hm)
  have hqueued_ne : ∀ pr ∈ s.queued, pr.1 ≠ (s.running.get ⟨pos, hpos⟩).idx := by
    intro pr hm heq
    exact hfresh.1 (heq ▸ List.mem_map_of_mem Prod.fst hm)
  have hsnap_ne : ∀ qq ∈ s.snapshots, qq.1 ≠ (s.running.get ⟨pos, hpos⟩).idx := by
    intro qq hm heq
    exact hfresh.2.2.1 (heq ▸ List.mem_map_of_mem Prod.fst hm)
  have hcrash_ne : ∀ i2 ∈ s.crashed, i2 ≠ (s.running.get ⟨pos, hpos⟩).idx := by
    intro i2 hm heq
    exact hfresh.2.2.2 (heq ▸ hm)
  have hrle : (s.running.eraseIdx pos).length ≤ C := by
    have h1 := h.run_le
    have h2 := List.length_eraseIdx_of_lt hpos
    omega
  unfold resolveJob
  by_cases hcr : (s.running.get ⟨pos, hpos⟩).spec.crash
  · rw [if_pos hcr]
    apply admitJobs_inv
    refine ⟨hrle, h.queued_eq, h.admitted_eq, ?_, h.res_idx, ?_, h.queued_trace,
      h.snap_inv, ?_, h.no_done, h.fdto, h.oafd, h.oc, h.enc, h.noclient⟩
    · exact perm_shuffle_crash hmapR h.perm
    · intro j2 hm
      exact h.run_inv j2 (List.mem_of_mem_eraseIdx hm)
    · intro i2 hm
      rcases List.mem_append.1 hm with hm | hm
      · exact h.crash_inv i2 hm
      · rw [List.mem_singleton] at hm
        subst hm
        refine ⟨?_, hRI.crash_silent hcr⟩
        rw [← hRI.spec_eq]
        exact hcr
  · rw [if_neg hcr]
    apply admitJobs_inv
    have hcrF : (s.running.get ⟨pos, hpos⟩).spec.crash = false := by
      revert hcr
      cases (s.running.get ⟨pos, hpos⟩).spec.crash <;> simp
    have hstidx : (s.running.get ⟨pos, hpos⟩).fs.index
        = (s.running.get ⟨pos, hpos⟩).idx := hRI.fs_index
    have hjpne : ∀ i2, i2 ≠ (s.running.get ⟨pos, hpos⟩).idx →
        jobProgresses
          ((completeJob hc (s.running.get ⟨pos, hpos⟩).spec
              (s.running.get ⟨pos, hpos⟩).fs).2.1
            ++ reportOverall hc (files.map fun f => f.size)
                (s.processedMeta.set (s.running.get ⟨pos, hpos⟩).idx
                  (completeJob hc (s.running.get ⟨pos, hpos⟩).spec
                      (s.running.get ⟨pos, hpos⟩).fs).1.processedBytes)) i2 = [] := by
      intro i2 hne
      rw [jobProgresses_append, jobProgresses_reportOverall, List.append_nil]
      refine completeJob_jp_ne _ _ _ _ ?_
      rw [hstidx]
      exact fun hx => hne hx.symm
    refine ⟨hrle, h.queued_eq, h.admitted_eq, ?_, ?_, ?_, ?_, ?_, ?_, ?_, ?_, ?_,
      ?_, ?_, ?_⟩
    · rw [List.map_append]
      exact perm_shuffle_snap hmapR h.perm
    · rw [List.map_append, List.map_append, h.res_idx]
      congr 1
      show [(completeJob _ _ _).2.2.index] = [(s.running.get ⟨pos, hpos⟩).idx]
      rw [completeJob_result_index, hstidx]
    · intro j2 hm
      rw [List.append_assoc]
      exact runInv_trace_ext (h.run_inv j2 (List.mem_of_mem_eraseIdx hm))
        (hjpne j2.idx (herased_ne j2 hm))
    · intro pr hm
      rw [List.append_assoc, jobProgresses_append, h.queued_trace pr hm,
        hjpne pr.1 (hqueued_ne pr hm)]
      rfl
    · intro qq hm
      rcases List.mem_append.1 hm with hm | hm
      · rw [List.append_assoc]
        exact snapInv_trace_ext (h.snap_inv qq hm) (hjpne qq.1 (hsnap_ne qq hm))
      · rw [List.mem_singleton] at hm
        subst hm
        rw [List.append_assoc]
        have hspecAt : specAt files (s.running.get ⟨pos, hpos⟩).idx
            = (s.running.get ⟨pos, hpos⟩).spec := hRI.spec_eq.symm
        have hjp : jobProgresses (s.trace
            ++ ((completeJob hc (s.running.get ⟨pos, hpos⟩).spec
                  (s.running.get ⟨pos, hpos⟩).fs).2.1
              ++ reportOverall hc (files.map fun f => f.size)
                  (s.processedMeta.set (s.running.get ⟨pos, hpos⟩).idx
                    (completeJob hc (s.running.get ⟨pos, hpos⟩).spec
                        (s.running.get ⟨pos, hpos⟩).fs).1.processedBytes)))
            (s.running.get ⟨pos, hpos⟩).idx
            = jobProgresses s.trace (s.running.get ⟨pos, hpos⟩).idx
              ++ jobProgresses (completeJob hc (s.running.get ⟨pos, hpos⟩).spec
                  (s.running.get ⟨pos, hpos⟩).fs).2.1
                  (s.running.get ⟨pos, hpos⟩).idx := by
          rw [jobProgresses_append, jobProgresses_append,
            jobProgresses_reportOverall, List.append_nil]
        refine ⟨?_, completeJob_fst_isCompressing _ _ _, ?_, ?_, ?_⟩
        · rw [hspecAt]
          exact hcrF
        · intro hf
          exact completeJob_failed_zero hc _ _ (hspecAt ▸ hf)
        · show List.Chain' (· ≤ ·) (jobProgresses _ _).dropLast
          rw [hjp]
          rcases completeJob_jp hc (s.running.get ⟨pos, hpos⟩).spec
              (s.running.get ⟨pos, hpos⟩).fs
              (s.running.get ⟨pos, hpos⟩).idx with hc2 | ⟨-, hc2⟩
          · rw [hc2, List.append_nil]
            exact hRI.chain.sublist (List.dropLast_sublist _)
          · rw [hc2, List.dropLast_concat]
            exact hRI.chain
        · intro hs
          show List.Chain' (· ≤ ·) (jobProgresses _ _)
          rw [hjp]
          rcases completeJob_jp hc (s.running.get ⟨pos, hpos⟩).spec
              (s.running.get ⟨pos, hpos⟩).fs
              (s.running.get ⟨pos, hpos⟩).idx with hc2 | ⟨-, hc2⟩
          · rw [hc2, List.append_nil]
            exact hRI.chain
          · rw [hc2]
            rw [completeJob_success_progress hc _ _ (hspecAt ▸ hs)]
            refine chain_concat_of_lastLe hRI.chain hRI.lastle ?_
            have hb : (s.running.get ⟨pos, hpos⟩).fs.progress ≤ MAX_SIMULATED_PCT := by
              rw [hRI.fs_pct]
              exact min_le_left _ _
            have hm90 : MAX_SIMULATED_PCT = 90 := rfl
            omega
    · intro i2 hm
      rw [List.append_assoc]
      refine ⟨(h.crash_inv i2 hm).1, ?_⟩
      rw [jobProgresses_append, (h.crash_inv i2 hm).2,
        hjpne i2 (hcrash_ne i2 hm)]
      rfl
    · intro e he
      rw [List.append_assoc, List.mem_append] at he
      rcases he with he | he
      · exact h.no_done e he
      · exact completion_block_no_done hc _ _ _ _ e he
    · rw [List.append_assoc]
      exact fileDoneThenOverall_append h.fdto (completion_block_fdto hc _ _ _ _)
    · rw [List.append_assoc]
      exact overallAfterFileDone_append h.oafd (completion_block_oafd hc _ _ _ _)
    · intro e he
      rw [List.append_assoc, List.mem_append] at he
      rcases he with he | he
      · exact h.oc e he
      · exact completion_block_oc hc _ _ _ _ e he
    · intro c hm
      rcases List.mem_append.1 hm with hm | hm
      · exact h.enc c hm
      · rw [List.mem_singleton] at hm
        subst hm
        rfl
    · intro hcl
      subst hcl
      rw [h.noclient rfl, (completeJob_events false _ _).1 rfl, reportOverall_false]
      rfl

/-- An estimator tick of a running job preserves the pool invariant. -/
theorem tickCase_inv {C : ℕ} {hc : Bool} {q : ℤ} {files : List JobSpec}
    {s : PoolSt} (h : PoolInv C hc q files s) (pos : ℕ)
    (hpos : pos < s.running.length) (r : Rnd) (rest : List Rnd)
    (hcr : (s.running.get ⟨pos, hpos⟩).spec.crash = false) :
    PoolInv C hc q files
      { s with
        running := s.running.eraseIdx pos ++
          [{ idx := (s.running.get ⟨pos, hpos⟩).idx,
             spec := (s.running.get ⟨pos, hpos⟩).spec,
             fs := (reportIfNeeded hc (tickJob (s.running.get ⟨pos, hpos⟩).fs r)).1,
             ticksLeft := rest }],
        trace := s.trace
          ++ (reportIfNeeded hc (tickJob (s.running.get ⟨pos, hpos⟩).fs r)).2 } := by
  have hjmem : s.running.get ⟨pos, hpos⟩ ∈ s.running := List.get_mem _ _ hpos
  have hRI := h.run_inv _ hjmem
  have hpermR : s.running.Perm
      (s.running.get ⟨pos, hpos⟩ :: s.running.eraseIdx pos) :=
    perm_get_cons_eraseIdx _ pos hpos
  have hmapR : (s.running.map RunningJob.idx).Perm
      ((s.running.get ⟨pos, hpos⟩).idx
        :: (s.running.eraseIdx pos).map RunningJob.idx) := by
    have hm := hpermR.map RunningJob.idx
    simpa using hm
  have hcongr : (s.queued.map Prod.fst ++ s.running.map RunningJob.idx
      ++ s.snapshots.map Prod.fst ++ s.crashed).Perm
      (s.queued.map Prod.fst
        ++ ((s.running.get ⟨pos, hpos⟩).idx
              :: (s.running.eraseIdx pos).map RunningJob.idx)
        ++ s.snapshots.map Prod.fst ++ s.crashed) :=
    List.Perm.append_right _ (List.Perm.append_right _ (List.Perm.append_left _ hmapR))
  have hperm2 := hcongr.symm.trans h.perm
  have hnodup := hperm2.symm.nodup (List.nodup_range _)
  have hfresh := fresh_of_nodup hnodup
  have herased_ne : ∀ j2 ∈ s.running.eraseIdx pos,
      j2.idx ≠ (s.running.get ⟨pos, hpos⟩).idx := by
    intro j2 hm heq
    exact hfresh.2.1 (heq ▸ List.mem_map_of_mem RunningJob.idx hm)
  have hqueued_ne : ∀ pr ∈ s.queued, pr.1 ≠ (s.running.get ⟨pos, hpos⟩).idx := by
    intro pr hm heq
    exact hfresh.1 (heq ▸ List.mem_map_of_mem Prod.fst hm)
  have hsnap_ne : ∀ qq ∈ s.snapshots, qq.1 ≠ (s.running.get ⟨pos, hpos⟩).idx := by
    intro qq hm heq
    exact hfresh.2.2.1 (heq ▸ List.mem_map_of_mem Prod.fst hm)
  have hcrash_ne : ∀ i2 ∈ s.crashed, i2 ≠ (s.running.get ⟨pos, hpos⟩).idx := by
    intro i2 hm heq
    exact hfresh.2.2.2 (heq ▸ hm)
  have htf := tickJob_fields (s.running.get ⟨pos, hpos⟩).fs r
  have hrep1idx : (reportIfNeeded hc (tickJob (s.running.get ⟨pos, hpos⟩).fs r)).1.index
      = (s.running.get ⟨pos, hpos⟩).idx := by
    rw [reportIfNeeded_fst_index, htf.1, hRI.fs_index]
  have hjprep : ∀ i2, i2 ≠ (s.running.get ⟨pos, hpos⟩).idx →
      jobProgresses (reportIfNeeded hc (tickJob (s.running.get ⟨pos, hpos⟩).fs r)).2 i2
        = [] := by
    intro i2 hne
    rcases reportIfNeeded_snd hc (tickJob (s.running.get ⟨pos, hpos⟩).fs r) with h2 | h2
    · rw [h2]
      rfl
    · rw [h2, jobProgresses_fileProgress, if_neg]
      rw [htf.1, hRI.fs_index]
      exact fun hx => hne hx.symm
  have hmono : (s.running.get ⟨pos, hpos⟩).fs.progress
      ≤ (tickJob (s.running.get ⟨pos, hpos⟩).fs r).progress :=
    tickJob_progress_mono _ r hRI.fs_pct hRI.fs_cap
  refine ⟨?_, h.queued_eq, h.admitted_eq, ?_, h.res_idx, ?_, ?_, ?_, ?_, ?_, ?_,
    ?_, ?_, h.enc, ?_⟩
  · show (s.running.eraseIdx pos ++ [_]).length ≤ C
    rw [List.length_append, List.length_eraseIdx_of_lt hpos]
    have h1 := h.run_le
    simp only [List.length_singleton]
    omega
  · show ((s.queued.map Prod.fst)
        ++ ((s.running.eraseIdx pos ++ [_]).map RunningJob.idx)
        ++ s.snapshots.map Prod.fst ++ s.crashed).Perm _
    rw [List.map_append]
    exact perm_shuffle_tick hmapR h.perm
  · intro j2 hm
    rcases List.mem_append.1 hm with hm | hm
    · exact runInv_trace_ext (h.run_inv j2 (List.mem_of_mem_eraseIdx hm))
        (hjprep j2.idx (herased_ne j2 hm))
    · rw [List.mem_singleton] at hm
      subst hm
      refine ⟨hRI.spec_eq, ?_, ?_, ?_, ?_, ?_, ?_, ?_, ?_, ?_⟩
      · exact hrep1idx
      · rw [reportIfNeeded_fst_originalName, htf.2.1, hRI.fs_name]
      · rw [reportIfNeeded_fst_originalSize, htf.2.2.1, hRI.fs_size]
      · rw [reportIfNeeded_fst_isCompressing, htf.2.2.2.1, hRI.fs_compressing]
      · rw [reportIfNeeded_fst_processedBytes, reportIfNeeded_fst_originalSize,
          htf.2.2.1]
        exact tickJob_cap _ r hRI.fs_compressing
      · rw [reportIfNeeded_fst_progress, reportIfNeeded_fst_processedBytes,
          reportIfNeeded_fst_originalSize, htf.2.2.1]
        exact tickJob_progress _ r hRI.fs_compressing
      · show List.Chain' (· ≤ ·) (jobProgresses (s.trace ++ _) _)
        rw [jobProgresses_append]
        rcases reportIfNeeded_snd hc (tickJob (s.running.get ⟨pos, hpos⟩).fs r)
          with h2 | h2
        · rw [h2]
          rw [jobProgresses_nil, List.append_nil]
          exact hRI.chain
        · rw [h2, jobProgresses_fileProgress, if_pos (by rw [htf.1, hRI.fs_index])]
          exact chain_concat_of_lastLe hRI.chain hRI.lastle hmono
      · show lastLe (jobProgresses (s.trace ++ _) _) _
        rw [jobProgresses_append]
        rcases reportIfNeeded_snd hc (tickJob (s.running.get ⟨pos, hpos⟩).fs r)
          with h2 | h2
        · rw [h2]
          rw [jobProgresses_nil, List.append_nil, reportIfNeeded_fst_progress]
          exact lastLe_mono hRI.lastle hmono
        · rw [h2, jobProgresses_fileProgress, if_pos (by rw [htf.1, hRI.fs_index]),
            reportIfNeeded_fst_progress]
          exact lastLe_concat _ _ _ (le_refl _)
      · intro hx
        rw [hx] at hcr
        cases hcr
  · intro pr hm
    rw [jobProgresses_append, h.queued_trace pr hm, hjprep pr.1 (hqueued_ne pr hm)]
    rfl
  · intro qq hm
    exact snapInv_trace_ext (h.snap_inv qq hm) (hjprep qq.1 (hsnap_ne qq hm))
  · intro i2 hm
    refine ⟨(h.crash_inv i2 hm).1, ?_⟩
    rw [jobProgresses_append, (h.crash_inv i2 hm).2, hjprep i2 (hcrash_ne i2 hm)]
    rfl
  · intro e he
    rcases List.mem_append.1 he with he | he
    · exact h.no_done e he
    · rcases reportIfNeeded_snd hc (tickJob (s.running.get ⟨pos, hpos⟩).fs r)
        with h2 | h2 <;> rw [h2] at he
      · cases he
      · rw [List.mem_singleton] at he
        subst he
        rfl
  · refine fileDoneThenOverall_append h.fdto ?_
    rcases reportIfNeeded_snd hc (tickJob (s.running.get ⟨pos, hpos⟩).fs r)
      with h2 | h2 <;> rw [h2] <;> rfl
  · refine overallAfterFileDone_append h.oafd ?_
    rcases reportIfNeeded_snd hc (tickJob (s.running.get ⟨pos, hpos⟩).fs r)
      with h2 | h2 <;> rw [h2] <;> rfl
  · intro e he
    rcases List.mem_append.1 he with he | he
    · exact h.oc e he
    · rcases reportIfNeeded_snd hc (tickJob (s.running.get ⟨pos, hpos⟩).fs r)
        with h2 | h2 <;> rw [h2] at he
      · cases he
      · rw [List.mem_singleton] at he
        subst he
        rfl
  · intro hcl
    subst hcl
    rw [h.noclient rfl, reportIfNeeded_snd_noclient]
    rfl

/-- Every scheduler step preserves the pool invariant. -/
theorem step_inv {C : ℕ} {hc : Bool} {q : ℤ} {files : List JobSpec} {s : PoolSt}
    (h : PoolInv C hc q files s) (choice : ℕ) :
    PoolInv C hc q files (step C hc q (files.map fun f => f.size) s choice) := by
  unfold step
  split
  · exact h
  · rename_i hlen
    unfold stepJob
    by_cases hcr : (s.running.get
        ⟨choice % s.running.length,
          Nat.mod_lt _ (Nat.pos_of_ne_zero hlen)⟩).spec.crash
    · rw [if_pos hcr]
      exact resolveJob_inv h _ _
    · rw [if_neg hcr]
      have hcrF : (s.running.get
          ⟨choice % s.running.length,
            Nat.mod_lt _ (Nat.pos_of_ne_zero hlen)⟩).spec.crash = false := by
        revert hcr
        cases (s.running.get
          ⟨choice % s.running.length,
            Nat.mod_lt _ (Nat.pos_of_ne_zero hlen)⟩).spec.crash <;> simp
      cases hticks : (s.running.get
          ⟨choice % s.running.length,
            Nat.mod_lt _ (Nat.pos_of_ne_zero hlen)⟩).ticksLeft with
      | nil =>
        exact resolveJob_inv h _ _
      | cons r rest =>
        exact tickCase_inv h _ _ r rest hcrF

/-- The invariant holds right after the initial admission. -/
theorem initSt_inv (C : ℕ) (hc : Bool) (q : ℤ) (files : List JobSpec) :
    PoolInv C hc q files (initSt C files) := by
  unfold initSt
  apply admitJobs_inv
  refine ⟨Nat.zero_le _, ?_, ?_, ?_, rfl, ?_, ?_, ?_, ?_, ?_, rfl, rfl, ?_, ?_, ?_⟩
  · show files.enum = files.enum.drop (List.length [])
    rfl
  · rfl
  · show (files.enum.map Prod.fst ++ [] ++ [] ++ []).Perm (List.range files.length)
    rw [List.append_nil, List.append_nil, List.append_nil, List.enum_map_fst]
  · intro j hj
    cases hj
  · intro pr hm
    rfl
  · intro qq hm
    cases hm
  · intro i2 hm
    cases hm
  · intro e he
    cases he
  · intro e he
    cases he
  · intro c hm
    cases hm
  · intro hcl
    rfl

/-- The invariant holds in every state reachable along any schedule. -/
theorem runSteps_inv_of {C : ℕ} {hc : Bool} {q : ℤ} {files : List JobSpec}
    {s : PoolSt} (h : PoolInv C hc q files s) (sched : List ℕ) :
    PoolInv C hc q files (runSteps C hc q (files.map fun f => f.size) s sched) := by
  induction sched generalizing s with
  | nil => exact h
  | cons c cs ih => exact ih (step_inv h c)

/-- The invariant holds after any full pool run. -/
theorem poolRun_inv (cfg : Option ℤ) (hc : Bool) (qp : Option ℤ)
    (files : List JobSpec) (sched : List ℕ) :
    PoolInv (CONCURRENCY cfg) hc (clampQuality qp) files
      (poolRun cfg hc qp files sched) :=
  runSteps_inv_of (initSt_inv _ _ _ _) sched

/-! ### Concrete job behaviours used in witnesses and counterexamples -/

/-- A job whose encode and persistence succeed, with no estimator tick. -/
def jobOk : JobSpec :=
  { originalname := "a.png", size := 1000, ticks := [], encode := .ok 100,
    persistOk := true, persistErrMsg := "", now := 1, crash := false }

/-- A job whose encode fails after one estimator tick (2% draw). -/
def jobFailTick : JobSpec :=
  { originalname := "b.png", size := 1000000, ticks := [⟨1, 100⟩],
    encode := .fail "boom", persistOk := true, persistErrMsg := "", now := 2,
    crash := false }

/-- A job that throws an unexpected internal error before its try block. -/
def jobCrash : JobSpec :=
  { originalname := "c.png", size := 5, ticks := [], encode := .ok 3,
    persistOk := true, persistErrMsg := "", now := 3, crash := true }

/-- A zero-byte job. -/
def jobZero : JobSpec :=
  { originalname := "d.png", size := 0, ticks := [], encode := .ok 0,
    persistOk := true, persistErrMsg := "", now := 4, crash := false }

/-- A 10000-byte job (small enough that 5% of it is below 8 KiB). -/
def job10000 : JobSpec :=
  { originalname := "e.png", size := 10000, ticks := [], encode := .ok 100,
    persistOk := true, persistErrMsg := "", now := 5, crash := false }

/-! ### C1 -/

/-- C1 counterexample: with concurrency 2 and the second job finishing
first, a completed batch of two files returns `results` in completion
order `[1, 0]`, not ordered by the original index — refuting the claimed
index ordering of the synchronous batch response. -/
theorem C1_counterexample :
    finished (poolRun (some 2) true none [jobOk, jobOk] [1, 0]) = true ∧
    (compressMulti (some 2) true none [jobOk, jobOk] [1, 0]).resultIndices
      = [1, 0] ∧
    [1, 0] ≠ List.range 2 := by
  refine ⟨by decide, by decide, by decide⟩

/-- C1 (amended): after every job of a crash-free batch has terminated,
the synchronous response is `{success: true}` with a results array holding
exactly one entry per submitted file (its original index included), but in
completion order — a permutation of the index range, not necessarily
sorted by index. -/
theorem C1_results_complete (cfg : Option ℤ) (hc : Bool) (qp : Option ℤ)
    (files : List JobSpec) (sched : List ℕ)
    (hnocrash : ∀ f ∈ files, f.crash = false)
    (hfin : finished (poolRun cfg hc qp files sched) = true) :
    (finalize hc (poolRun cfg hc qp files sched)).1.success = true ∧
    ((finalize hc (poolRun cfg hc qp files sched)).1.results.map
        ResultEntry.index).Perm (List.range files.length) := by
  have hP := poolRun_inv cfg hc qp files sched
  refine ⟨rfl, ?_⟩
  rw [finished, Bool.and_eq_true, List.isEmpty_iff, List.isEmpty_iff] at hfin
  have hperm := hP.perm
  rw [hfin.1, hfin.2] at hperm
  simp only [List.map_nil, List.nil_append] at hperm
  have hcr : (poolRun cfg hc qp files sched).crashed = [] := by
    rcases hcrash : (poolRun cfg hc qp files sched).crashed with _ | ⟨i, rest⟩
    · rfl
    · exfalso
      have hmem : i ∈ (poolRun cfg hc qp files sched).crashed := by
        rw [hcrash]
        exact List.mem_cons_self _ _
      have hrange : i ∈ List.range files.length := by
        refine hperm.subset ?_
        exact List.mem_append.2 (Or.inr hmem)
      have hlt := List.mem_range.1 hrange
      have hcrashT := (hP.crash_inv i hmem).1
      have hspec : specAt files i ∈ files := by
        unfold specAt
        rw [List.getD_eq_getElem?_getD]
        rw [List.getElem?_eq_getElem hlt]
        exact List.getElem_mem _
      rw [hnocrash _ hspec] at hcrashT
      cases hcrashT
  rw [hcr, List.append_nil] at hperm
  show ((poolRun cfg hc qp files sched).results.map ResultEntry.index).Perm _
  rw [hP.res_idx]
  exact hperm

/-- C1 witness. -/
theorem C1_witness :
    (finalize true (poolRun (some 2) true none [jobOk, jobOk] [1, 0])).1.success
        = true ∧
    ((finalize true (poolRun (some 2) true none [jobOk, jobOk] [1, 0])).1.results.map
        ResultEntry.index).Perm (List.range 2) :=
  C1_results_complete (some 2) true none [jobOk, jobOk] [1, 0]
    (by decide) (by decide)

/-! ### C2 -/

/-- C2 counterexample: a one-file batch submitted without a session id is
not rejected — refuting the claim that a missing session id triggers a
validation rejection of the batch submission. -/
theorem C2_counterexample :
    (compressMulti (some 2) false none [jobOk] [0]).isRejected = false := by
  decide

/-- C2 (amended): a batch submission is rejected immediately (HTTP 400,
nothing run) exactly when it contains zero files; a missing session id
never causes rejection — the batch still runs, only with no notifications
pushed. -/
theorem C2_validation (cfg : Option ℤ) (hc : Bool) (qp : Option ℤ)
    (files : List JobSpec) (sched : List ℕ) :
    ((compressMulti cfg hc qp files sched).isRejected = true ↔ files = []) ∧
    (files = [] → compressMulti cfg hc qp files sched
        = .rejected 400 "No files uploaded (use field name files)") ∧
    (hc = false → (compressMulti cfg hc qp files sched).traceOf = []) := by
  refine ⟨⟨?_, ?_⟩, ?_, ?_⟩
  · intro h
    unfold compressMulti at h
    by_cases hf : files.length = 0
    · exact List.length_eq_zero.1 hf
    · rw [if_neg hf] at h
      cases h
  · intro h
    subst h
    rfl
  · intro h
    subst h
    rfl
  · intro h
    subst h
    unfold compressMulti
    by_cases hf : files.length = 0
    · rw [if_pos hf]
      rfl
    · rw [if_neg hf]
      show (finalize false (poolRun cfg false qp files sched)).2 = []
      unfold finalize
      rw [(poolRun_inv cfg false qp files sched).noclient rfl]
      rfl

/-- C2 witness. -/
theorem C2_witness :
    (compressMulti (some 2) false none ([] : List JobSpec) ([] : List ℕ)).isRejected
        = true ∧
    (compressMulti (some 2) false none [jobOk] [0]).traceOf = [] :=
  ⟨(C2_validation (some 2) false none [] []).1.2 rfl,
   (C2_validation (some 2) false none [jobOk] [0]).2.2 rfl⟩

/-! ### C3 -/

/-- C3 counterexample: a batch `[crashing, normal]` still completes and the
normal job runs, but the crashed job gets no Failed outcome: the results
of the completed batch are `[1]` — no entry at all for job 0, refuting
"converts it to a Failed outcome recorded for that job". -/
theorem C3_counterexample :
    finished (poolRun (some 2) true none [jobCrash, jobOk] [0, 0]) = true ∧
    (compressMulti (some 2) true none [jobCrash, jobOk] [0, 0]).resultIndices
      = [1] := by
  refine ⟨by decide, by decide⟩

/-- C3 (amended): when a job's execution throws an unexpected internal
error, the pool catches it and still admits and runs every remaining job
(the batch is never aborted), but no Failed outcome is recorded for the
crashed job: the results of a completed batch hold exactly one entry per
non-crashing file and none for a crashing one. -/
theorem C3_crash_swallowed (cfg : Option ℤ) (hc : Bool) (qp : Option ℤ)
    (files : List JobSpec) (sched : List ℕ)
    (hfin : finished (poolRun cfg hc qp files sched) = true) :
    ((poolRun cfg hc qp files sched).results.map ResultEntry.index).Perm
      ((List.range files.length).filter fun i => !(specAt files i).crash) := by
  have hP := poolRun_inv cfg hc qp files sched
  rw [finished, Bool.and_eq_true, List.isEmpty_iff, List.isEmpty_iff] at hfin
  have hperm := hP.perm
  rw [hfin.1, hfin.2] at hperm
  simp only [List.map_nil, List.nil_append] at hperm
  have hfil := hperm.filter fun i => !(specAt files i).crash
  rw [List.filter_append] at hfil
  have hsnapfil : ((poolRun cfg hc qp files sched).snapshots.map Prod.fst).filter
      (fun i => !(specAt files i).crash)
      = (poolRun cfg hc qp files sched).snapshots.map Prod.fst := by
    rw [List.filter_eq_self]
    intro i hm
    obtain ⟨qq, hqq, hq1⟩ := List.mem_map.1 hm
    subst hq1
    rw [(hP.snap_inv qq hqq).nocrash]
    rfl
  have hcrashfil : (poolRun cfg hc qp files sched).crashed.filter
      (fun i => !(specAt files i).crash) = [] := by
    rw [List.filter_eq_nil]
    intro i hm
    rw [(hP.crash_inv i hm).1]
    simp
  rw [hsnapfil, hcrashfil, List.append_nil] at hfil
  rw [hP.res_idx]
  exact hfil

/-- C3 witness. -/
theorem C3_witness :
    ((poolRun (some 2) true none [jobCrash, jobOk] [0, 0]).results.map
        ResultEntry.index).Perm
      ((List.range 2).filter fun i => !(specAt [jobCrash, jobOk] i).crash) :=
  C3_crash_swallowed (some 2) true none [jobCrash, jobOk] [0, 0] (by decide)

/-! ### C4 -/

/-- C4 counterexample: a job with one estimator tick (progress 1) whose
encode then fails pushes a final `file-progress` with progress 0 — a
file-progress notification lower than an earlier one for the same job,
refuting the claimed non-decreasing progress stream. -/
theorem C4_counterexample :
    jobProgresses ((compressMulti (some 2) true none [jobFailTick] [0, 0]).traceOf)
        0 = [1, 0] ∧
    ¬ List.Chain' (· ≤ ·) [1, 0] := by
  refine ⟨by decide, ?_⟩
  intro h
  exact absurd (List.chain'_cons.1 h).1 (by omega)

/-- C4 (amended): for every job of a batch, the pushed `file-progress`
values are non-decreasing from the first notification up to the last but
one; only the final notification may drop (the failure path resets it to
0), and for a job that succeeds the entire sequence, terminal 100
included, is non-decreasing. -/
theorem C4_progress_monotone (cfg : Option ℤ) (hc : Bool) (qp : Option ℤ)
    (files : List JobSpec) (sched : List ℕ) (i : ℕ) (hi : i < files.length) :
    List.Chain' (· ≤ ·)
      (jobProgresses (poolRun cfg hc qp files sched).trace i).dropLast ∧
    (jobSucceeded (specAt files i) →
      List.Chain' (· ≤ ·) (jobProgresses (poolRun cfg hc qp files sched).trace i)) := by
  have hP := poolRun_inv cfg hc qp files sched
  have hmem : i ∈ (poolRun cfg hc qp files sched).queued.map Prod.fst
      ++ (poolRun cfg hc qp files sched).running.map RunningJob.idx
      ++ (poolRun cfg hc qp files sched).snapshots.map Prod.fst
      ++ (poolRun cfg hc qp files sched).crashed :=
    (hP.perm.mem_iff).2 (List.mem_range.2 hi)
  rcases List.mem_append.1 hmem with hmem | hcr
  · rcases List.mem_append.1 hmem with hmem | hsn
    · rcases List.mem_append.1 hmem with hqu | hrn
      · obtain ⟨pr, hpr, hpr1⟩ := List.mem_map.1 hqu
        have hjp := hP.queued_trace pr hpr
        rw [hpr1] at hjp
        rw [hjp]
        exact ⟨List.chain'_nil, fun _ => List.chain'_nil⟩
      · obtain ⟨j2, hj2, hj1⟩ := List.mem_map.1 hrn
        have hRI := hP.run_inv j2 hj2
        rw [← hj1]
        exact ⟨hRI.chain.sublist (List.dropLast_sublist _),
          fun _ => hRI.chain⟩
    · obtain ⟨qq, hqq, hq1⟩ := List.mem_map.1 hsn
      have hSI := hP.snap_inv qq hqq
      rw [← hq1]
      exact ⟨hSI.chain_drop, hSI.chain_full⟩
  · have hjp := (hP.crash_inv i hcr).2
    rw [hjp]
    exact ⟨List.chain'_nil, fun _ => List.chain'_nil⟩

/-- C4 witness. -/
theorem C4_witness :
    List.Chain' (· ≤ ·)
      (jobProgresses (poolRun (some 2) true none [jobOk] [0]).trace 0).dropLast ∧
    List.Chain' (· ≤ ·)
      (jobProgresses (poolRun (some 2) true none [jobOk] [0]).trace 0) :=
  ⟨(C4_progress_monotone (some 2) true none [jobOk] [0] 0 (by decide)).1,
   (C4_progress_monotone (some 2) true none [jobOk] [0] 0 (by decide)).2
     ⟨rfl, ⟨100, rfl⟩, rfl⟩⟩

/-! ### C5 -/

/-- C5 counterexample: in a completed run with an estimator tick, the
tick's `file-progress` notification is not followed by any
`overall-progress` push — the aggregator does not recompute on per-job
progress notifications, refuting "whenever any job reports a progress or
completion notification". -/
theorem C5_counterexample :
    finished (poolRun (some 2) true none [jobFailTick] [0, 0]) = true ∧
    everyReportFollowedByOverall
      ((compressMulti (some 2) true none [jobFailTick] [0, 0]).traceOf) = false := by
  refine ⟨by decide, by decide⟩

/-- C5 (amended): the aggregator recomputes and pushes `overall-progress`
only on job completion — exactly one push immediately after each
`file-done`, none after `file-progress` ticks — plus one final summary
push; every in-run push carries the batch's total original size and
`min(100, round(totalProcessed * 100 / totalOriginal))` (0 when the size
total is 0), and the summary push reports 100 when its own size total
(over terminal results) is 0. -/
theorem C5_overall_on_completion (cfg : Option ℤ) (hc : Bool) (qp : Option ℤ)
    (files : List JobSpec) (sched : List ℕ) :
    fileDoneThenOverall (poolRun cfg hc qp files sched).trace = true ∧
    overallAfterFileDone (poolRun cfg hc qp files sched).trace = true ∧
    (∀ e ∈ (poolRun cfg hc qp files sched).trace,
      overallConsistent (files.map fun f => f.size).sum e = true) ∧
    ((finalize hc (poolRun cfg hc qp files sched)).2
      = (poolRun cfg hc qp files sched).trace ++
        (if hc then
          [.overallProgress
              (finalTotalProcessed (poolRun cfg hc qp files sched).results)
              (finalTotalOriginal (poolRun cfg hc qp files sched).results)
              (finalPct (poolRun cfg hc qp files sched).results),
           .done (poolRun cfg hc qp files sched).results]
         else [])) ∧
    (finalTotalOriginal (poolRun cfg hc qp files sched).results = 0 →
      finalPct (poolRun cfg hc qp files sched).results = 100) := by
  have hP := poolRun_inv cfg hc qp files sched
  refine ⟨hP.fdto, hP.oafd, hP.oc, rfl, ?_⟩
  intro h0
  unfold finalPct
  rw [h0]
  rfl

/-- C5 witness. -/
theorem C5_witness :
    fileDoneThenOverall (poolRun (some 2) true none [jobZero] [0]).trace = true ∧
    finalPct (poolRun (some 2) true none [jobZero] [0]).results = 100 :=
  ⟨(C5_overall_on_completion (some 2) true none [jobZero] [0]).1,
   (C5_overall_on_completion (some 2) true none [jobZero] [0]).2.2.2.2 (by decide)⟩

/-! ### C6 -/

/-- C6 (confirmed): once every job of a batch (observed by a client) has
terminated, the full event trace contains exactly one `done` event, it is
the last event, and every earlier event — every per-job terminal
`file-done` and every `overall-progress`, the final one included — comes
strictly before it. -/
theorem C6_done_last (cfg : Option ℤ) (qp : Option ℤ) (files : List JobSpec)
    (sched : List ℕ)
    (hfin : finished (poolRun cfg true qp files sched) = true) :
    ((finalize true (poolRun cfg true qp files sched)).2.filter
        Event.isDone).length = 1 ∧
    (finalize true (poolRun cfg true qp files sched)).2.getLast?
      = some (.done (poolRun cfg true qp files sched).results) ∧
    (∀ e ∈ (finalize true (poolRun cfg true qp files sched)).2.dropLast,
      e.isDone = false) := by
  have hP := poolRun_inv cfg true qp files sched
  have hshape : (finalize true (poolRun cfg true qp files sched)).2
      = ((poolRun cfg true qp files sched).trace
          ++ [.overallProgress
                (finalTotalProcessed (poolRun cfg true qp files sched).results)
                (finalTotalOriginal (poolRun cfg true qp files sched).results)
                (finalPct (poolRun cfg true qp files sched).results)])
        ++ [.done (poolRun cfg true qp files sched).results] := by
    show (poolRun cfg true qp files sched).trace ++ [_, _] = _
    rw [List.append_assoc]
    rfl
  refine ⟨?_, ?_, ?_⟩
  · rw [hshape, List.filter_append, List.filter_append, List.length_append,
      List.length_append]
    have h1 : ((poolRun cfg true qp files sched).trace.filter Event.isDone).length
        = 0 := by
      rw [List.length_eq_zero, List.filter_eq_nil]
      intro e he
      rw [hP.no_done e he]
      simp
    rw [h1]
    rfl
  · rw [hshape, List.getLast?_concat]
  · rw [hshape, List.dropLast_concat]
    intro e he
    rcases List.mem_append.1 he with he | he
    · exact hP.no_done e he
    · rw [List.mem_singleton] at he
      subst he
      rfl

/-- C6 witness. -/
theorem C6_witness :
    ((finalize true (poolRun (some 2) true none [jobOk] [0])).2.filter
        Event.isDone).length = 1 ∧
    (finalize true (poolRun (some 2) true none [jobOk] [0])).2.getLast?
      = some (.done (poolRun (some 2) true none [jobOk] [0]).results) ∧
    (∀ e ∈ (finalize true (poolRun (some 2) true none [jobOk] [0])).2.dropLast,
      e.isDone = false) :=
  C6_done_last (some 2) none [jobOk] [0] (by decide)

/-! ### C7 -/

/-- C7 (confirmed): in every state reachable along any schedule at most
`CONCURRENCY` jobs are running; the configured limit is clamped below at 1,
so requesting 0 behaves identically to requesting 1; and jobs are admitted
in index order: the admission record is always `0, 1, 2, ...`. -/
theorem C7_concurrency (cfg : Option ℤ) (hc : Bool) (qp : Option ℤ)
    (files : List JobSpec) (sched : List ℕ) :
    (poolRun cfg hc qp files sched).running.length ≤ CONCURRENCY cfg ∧
    1 ≤ CONCURRENCY cfg ∧
    (∀ z : ℤ, z < 1 → CONCURRENCY (some z) = 1) ∧
    CONCURRENCY (some 0) = CONCURRENCY (some 1) ∧
    poolRun (some 0) hc qp files sched = poolRun (some 1) hc qp files sched ∧
    (poolRun cfg hc qp files sched).admitted
      = List.range (poolRun cfg hc qp files sched).admitted.length := by
  have hP := poolRun_inv cfg hc qp files sched
  refine ⟨hP.run_le, ?_, ?_, rfl, rfl, hP.admitted_eq⟩
  · unfold CONCURRENCY
    omega
  · intro z hz
    unfold CONCURRENCY
    simp only [Option.getD_some]
    omega

/-- C7 witness. -/
theorem C7_witness :
    CONCURRENCY (some (-5)) = 1 ∧
    (poolRun (some 2) true none [jobOk] [0]).running.length
      ≤ CONCURRENCY (some 2) :=
  ⟨(C7_concurrency (some (-5)) true none [jobOk] [0]).2.2.1 (-5) (by decide),
   (C7_concurrency (some 2) true none [jobOk] [0]).1⟩

/-! ### C8 -/

/-- C8 counterexample: on a 10000-byte job with a 2% draw, the tick adds
8192 bytes — far more than `round(2% * 10000) = 200` — refuting the
claimed upper bound of "a random 1%-5% of originalSize" (the 8 KiB floor
dominates small files). -/
theorem C8_counterexample :
    Rnd.valid ⟨1, 50⟩ ∧
    (tickJob (initFileState job10000 0) ⟨1, 50⟩).processedBytes
        - (initFileState job10000 0).processedBytes = 8192 ∧
    ¬ (8192 ≤ jsRound (10000 * 1) 50) := by
  refine ⟨by decide, by decide, by decide⟩

/-- C8 (amended): the computed tick increment is
`max(8 KiB, round(r * size))` for the drawn factor `r` in `[1%, 5%)`: it is
at least 8 KiB and at least `round(1% * size)`, and at most
`max(8 KiB, round(5% * size))` — not bounded by the drawn percentage alone.
After the tick, `processedBytes` never exceeds 90% of `originalSize`, the
progress equals `round(processedBytes * 100 / max(1, originalSize))`
capped at 90, the divisor `max(1, originalSize)` is always positive (no
division error at size 0), and a zero-size job stays at 0 processed
bytes and 0 progress. -/
theorem C8_tick_bounds (st : FileState) (r : Rnd) (hv : r.valid)
    (hcomp : st.isCompressing = true) :
    8 * 1024 ≤ tickInc st.originalSize r ∧
    jsRound st.originalSize 100 ≤ tickInc st.originalSize r ∧
    tickInc st.originalSize r ≤ max (8 * 1024) (jsRound st.originalSize 20) ∧
    (tickJob st r).processedBytes ≤ 9 * st.originalSize / 10 ∧
    (tickJob st r).progress
      = min MAX_SIMULATED_PCT (pctOf st.originalSize (tickJob st r).processedBytes) ∧
    0 < max 1 st.originalSize ∧
    (st.originalSize = 0 →
      (tickJob st r).processedBytes = 0 ∧ (tickJob st r).progress = 0) := by
  obtain ⟨hden, hlow, hhigh⟩ := hv
  have hs0 : (0 : ℚ) ≤ (st.originalSize : ℚ) := by positivity
  have hlow1 : jsRound st.originalSize 100 ≤ jsRound (st.originalSize * r.num) r.den := by
    refine jsRound_mono (by norm_num) hden ?_
    rw [div_le_div_iff (by norm_num) (by exact_mod_cast hden)]
    have hc1 : (r.den : ℚ) ≤ 100 * r.num := by exact_mod_cast hlow
    push_cast
    nlinarith
  have hhigh1 : jsRound (st.originalSize * r.num) r.den ≤ jsRound st.originalSize 20 := by
    refine jsRound_mono hden (by norm_num) ?_
    rw [div_le_div_iff (by exact_mod_cast hden) (by norm_num)]
    have hc1 : (20 : ℚ) * r.num ≤ r.den := by
      have hx : (20 * r.num : ℕ) ≤ r.den := le_of_lt hhigh
      exact_mod_cast hx
    push_cast
    nlinarith
  refine ⟨le_max_left _ _, ?_, ?_, tickJob_cap st r hcomp,
    tickJob_progress st r hcomp, by omega, ?_⟩
  · exact le_trans hlow1 (le_max_right _ _)
  · unfold tickInc
    exact max_le_max (le_refl _) hhigh1
  · intro h0
    have hne : ¬ st.isCompressing = false := by
      rw [hcomp]
      simp
    unfold tickJob
    rw [if_neg hne]
    dsimp only
    rw [h0]
    constructor
    · simp
    · simp [tickInc, jsRound]

/-- C8 witness. -/
theorem C8_witness :
    8 * 1024 ≤ tickInc (initFileState job10000 0).originalSize ⟨1, 50⟩ ∧
    (tickJob (initFileState jobZero 0) ⟨1, 50⟩).processedBytes = 0 :=
  ⟨(C8_tick_bounds (initFileState job10000 0) ⟨1, 50⟩ (by decide) (by decide)).1,
   ((C8_tick_bounds (initFileState jobZero 0) ⟨1, 50⟩ (by decide)
      (by decide)).2.2.2.2.2.2 rfl).1⟩

/-! ### C9 -/

/-- C9 (confirmed): every job whose `processFile` ends in the catch block
(encode error or failed write) leaves a terminal snapshot with
`processedBytes = 0` and `progress = 0`, and its estimator is stopped
(`isCompressing = false`) on that exit path — no stale partial progress
survives a failure. -/
theorem C9_failed_reset (cfg : Option ℤ) (hc : Bool) (qp : Option ℤ)
    (files : List JobSpec) (sched : List ℕ) (i : ℕ) (fs : FileState)
    (hsnap : (i, fs) ∈ (poolRun cfg hc qp files sched).snapshots)
    (hfail : jobFailed (specAt files i)) :
    fs.processedBytes = 0 ∧ fs.progress = 0 ∧ fs.isCompressing = false := by
  have hS := (poolRun_inv cfg hc qp files sched).snap_inv _ hsnap
  exact ⟨(hS.failed_zero hfail).1, (hS.failed_zero hfail).2, hS.not_compressing⟩

/-- C9 witness. -/
theorem C9_witness :
    ((poolRun (some 2) true none [jobFailTick] [0, 0]).snapshots.getD 0
        (0, initFileState jobFailTick 0)).2.processedBytes = 0 ∧
    ((poolRun (some 2) true none [jobFailTick] [0, 0]).snapshots.getD 0
        (0, initFileState jobFailTick 0)).2.progress = 0 ∧
    ((poolRun (some 2) true none [jobFailTick] [0, 0]).snapshots.getD 0
        (0, initFileState jobFailTick 0)).2.isCompressing = false :=
  C9_failed_reset (some 2) true none [jobFailTick] [0, 0] 0 _
    (by decide) ⟨rfl, Or.inl ⟨"boom", rfl⟩⟩

/-! ### C10 -/

/-- C10 (confirmed): a batch submitted without a quality parameter runs
every encode invocation at quality 80: the default is substituted before
the clamp to `[1, 100]`, and the clamped value is always in range, so an
absent parameter never yields an out-of-range or missing quality. -/
theorem C10_default_quality (cfg : Option ℤ) (hc : Bool) (files : List JobSpec)
    (sched : List ℕ) :
    clampQuality none = 80 ∧
    (∀ qp : Option ℤ, 1 ≤ clampQuality qp ∧ clampQuality qp ≤ 100) ∧
    (∀ c ∈ (poolRun cfg hc none files sched).encodeCalls, c.2 = 80) := by
  refine ⟨rfl, ?_, ?_⟩
  · intro qp
    unfold clampQuality
    constructor
    · omega
    · have h1 : min 100 (qp.getD 80) ≤ 100 := min_le_left _ _
      omega
  · intro c hm
    have h1 := (poolRun_inv cfg hc none files sched).enc c hm
    rw [h1]
    rfl

/-- C10 witness. -/
theorem C10_witness :
    clampQuality none = 80 ∧
    ((poolRun (some 2) true none [jobOk] [0]).encodeCalls.getD 0 (0, 0)).2 = 80 :=
  ⟨(C10_default_quality (some 2) true [jobOk] [0]).1,
   (C10_default_quality (some 2) true [jobOk] [0]).2.2 _ (by decide)⟩
